import Mathlib

/-!
SkPixelRef: lock protocol, generation identity, flattening and the factory registry.

A shallow embedding of `src/core/SkPixelRef.cpp`.

Conventions of the embedding.

* Pointers (`void*`, `SkColorTable*`, `Factory`) are natural numbers, `NULL` is `0`.
* `int32_t` / `uint32_t` values are kept as their 32-bit pattern, a natural number
  below `2 ^ 32`; arithmetic on them is reduced modulo `2 ^ 32`.
* `SkASSERT` is compiled only when `SK_DEBUG` is defined.  The build is a Boolean
  parameter `dbg` of every function that asserts; a failed assertion and an
  operation without defined behaviour (a store past the end of `gPairs`, `strcmp`
  on a null pointer) end the call with a `Fault`.
* The virtual hooks of a concrete pixel ref act on a state of their own (`σ`);
  they see the base object only through their arguments and results.
* Calls are sequential: `SkAutoMutexAcquire` has no effect on a single thread.
-/

namespace Skia

/-- The null pointer. -/
def NULL : Nat := 0

/-- How a call can end without a result. -/
inductive Fault where
  | assertion
  | undefinedBehaviour
  deriving DecidableEq, Repr

deriving instance DecidableEq for Except

/-- The `SkASSERT(cond)` statement: checked in debug builds, absent otherwise. -/
def SkASSERT (dbg : Bool) (cond : Bool) : Bool := !dbg || cond

/-! ## The process-wide generation counter -/

/-- Number of distinct 32-bit patterns. -/
def WORD : Nat := 2 ^ 32

/-- Modelled from the spec: `sk_atomic_inc` of SkThread.h, which is not among the sources.
The spec has the ID source as "a single monotonically advancing counter" advanced by an
atomic increment; the caller adds one to the result, so the result is the value held
before the increment.  Returns (previous value, value stored). -/
def sk_atomic_inc (addr : Nat) : Nat × Nat := (addr, (addr + 1) % WORD)

/-- Result of one call of `SkNextPixelRefGenerationID`: the value returned, the value
left in the static `gPixelRefGenerationID`, and (ghost) how many times the loop body ran. -/
structure GenDraw where
  genID : Nat
  counter : Nat
  incs : Nat
  deriving DecidableEq, Repr

/-- The `do { genID = sk_atomic_inc(&g) + 1; } while (0 == genID);` loop, started with
the static holding `g` after `incs` earlier passes through the body. -/
def genIDLoop (g incs : Nat) : GenDraw :=
  if h : 0 = ((sk_atomic_inc g).1 + 1) % WORD then genIDLoop (sk_atomic_inc g).2 (incs + 1)
  else
    let genID := ((sk_atomic_inc g).1 + 1) % WORD
    { genID := genID, counter := (sk_atomic_inc g).2, incs := incs + 1 }
termination_by (if (g + 1) % WORD = 0 then 1 else 0)
decreasing_by
  simp only [sk_atomic_inc, WORD] at *
  have h0 : (g + 1) % 2 ^ 32 = 0 := h.symm
  rw [if_pos h0, if_neg (by rw [h0]; decide)]
  exact Nat.zero_lt_one

/-- The function `int32_t SkNextPixelRefGenerationID()` on the static counter `g`. -/
def SkNextPixelRefGenerationID (g : Nat) : GenDraw := genIDLoop g 0

/-! ## The handle -/

/-- The mutex a handle synchronises on. -/
inductive MutexRef where
  | gPixelRefMutex
  | supplied (addr : Nat)
  deriving DecidableEq, Repr

/-- Modelled from the spec: the data members of `SkPixelRef`, declared in SkPixelRef.h,
which is not among the sources.  The spec lists `lockCount: integer`, `pixels`, `palette`,
`generationId: 0 | positive integer`, `immutable: boolean` and `mutex`; the member names
are those the source assigns.  `fLockCount` is an unbounded integer (the overflow of a
signed C++ integer has no defined behaviour); `fGenerationID` is a 32-bit pattern. -/
structure SkPixelRef where
  fMutex : MutexRef
  fPixels : Nat
  fColorTable : Nat
  fLockCount : Int
  fGenerationID : Nat
  fIsImmutable : Bool
  deriving DecidableEq, Repr

/-- One item of a flattened stream. -/
inductive Item where
  | bool (b : Bool)
  | word (n : Nat)
  deriving DecidableEq, Repr

/-- Modelled from the spec: `SkFlattenableWriteBuffer` of SkFlattenable.h, which is not
among the sources.  The spec's wire layout is a sequence of items, the base payload being
"a single boolean"; the buffer is the list of items written so far. -/
structure SkFlattenableWriteBuffer where
  items : List Item
  deriving DecidableEq, Repr

/-- Modelled from the spec: `SkFlattenableWriteBuffer::writeBool`, which is not among the
sources: writes a single boolean at the end of the stream. -/
def SkFlattenableWriteBuffer.writeBool (buffer : SkFlattenableWriteBuffer) (b : Bool) :
    SkFlattenableWriteBuffer :=
  { items := buffer.items ++ [Item.bool b] }

/-- Modelled from the spec: `SkFlattenableReadBuffer` of SkFlattenable.h, which is not
among the sources: a stream of items and the position of the next item to read. -/
structure SkFlattenableReadBuffer where
  items : List Item
  pos : Nat
  deriving DecidableEq, Repr

/-- Modelled from the spec: `SkFlattenableReadBuffer::readBool`, which is not among the
sources: reads "a single boolean" at the current position and moves past it.  An item
that is not a boolean, or the end of the stream, reads as `false`. -/
def SkFlattenableReadBuffer.readBool (buffer : SkFlattenableReadBuffer) :
    Bool × SkFlattenableReadBuffer :=
  (match buffer.items[buffer.pos]? with
    | some (Item.bool b) => b
    | _ => false,
   { buffer with pos := buffer.pos + 1 })

/-- The virtual hooks a concrete pixel ref supplies, acting on its own state `σ`.
`onLockPixels s ct` receives the value currently in the colour-table slot and returns
(pixels, value left in the slot, new state). -/
structure Hooks (σ : Type) where
  onLockPixels : σ → Nat → Nat × Nat × σ
  onUnlockPixels : σ → σ
  onLockPixelsAreWritable : σ → Bool
  onReadPixels : σ → Nat → Nat → Bool × σ

/-- A hook invocation, recorded in call order (ghost). -/
inductive HookCall where
  | onLockPixels
  | onUnlockPixels
  deriving DecidableEq, Repr

/-- Everything a handle operation can read or write: the handle, the state of its
concrete subtype, the static generation counter, the caller's write buffer, the debug
console, and two ghost records (hook invocations, number of generation IDs drawn). -/
structure World (σ : Type) where
  ref : SkPixelRef
  sub : σ
  gPixelRefGenerationID : Nat
  out : SkFlattenableWriteBuffer
  console : List String
  hookCalls : List HookCall
  idsDrawn : Nat

namespace SkPixelRef

/-- The constructor `SkPixelRef::SkPixelRef(SkBaseMutex* mutex)`; `none` is a null `mutex`. -/
def create (mutex : Option Nat) : SkPixelRef :=
  { fMutex := match mutex with
      | none => MutexRef.gPixelRefMutex
      | some m => MutexRef.supplied m
    fPixels := NULL
    fColorTable := NULL
    fLockCount := 0
    fGenerationID := 0
    fIsImmutable := false }

/-- The constructor `SkPixelRef::SkPixelRef(SkFlattenableReadBuffer& buffer, SkBaseMutex* mutex)`:
the handle built and the buffer after the read. -/
def createFromBuffer (buffer : SkFlattenableReadBuffer) (mutex : Option Nat) :
    SkPixelRef × SkFlattenableReadBuffer :=
  ({ fMutex := match mutex with
      | none => MutexRef.gPixelRefMutex
      | some m => MutexRef.supplied m
     fPixels := NULL
     fColorTable := NULL
     fLockCount := 0
     fGenerationID := 0
     fIsImmutable := buffer.readBool.1 },
   buffer.readBool.2)

/-- The method `SkPixelRef::flatten`. -/
def flatten (self : SkPixelRef) (buffer : SkFlattenableWriteBuffer) :
    SkFlattenableWriteBuffer :=
  buffer.writeBool self.fIsImmutable

variable {σ : Type}

/-- The method `SkPixelRef::lockPixels`. -/
def lockPixels (k : Hooks σ) (w : World σ) : World σ :=
  let count := w.ref.fLockCount + 1
  if 1 = count then
    let r := k.onLockPixels w.sub w.ref.fColorTable
    { w with
      ref := { w.ref with fLockCount := count, fPixels := r.1, fColorTable := r.2.1 }
      sub := r.2.2
      hookCalls := w.hookCalls ++ [HookCall.onLockPixels] }
  else
    { w with ref := { w.ref with fLockCount := count } }

/-- The method `SkPixelRef::unlockPixels`. -/
def unlockPixels (dbg : Bool) (k : Hooks σ) (w : World σ) : Except Fault (World σ) :=
  if SkASSERT dbg (decide (w.ref.fLockCount > 0)) then
    let count := w.ref.fLockCount - 1
    if 0 = count then
      Except.ok { w with
        ref := { w.ref with fLockCount := count, fPixels := NULL, fColorTable := NULL }
        sub := k.onUnlockPixels w.sub
        hookCalls := w.hookCalls ++ [HookCall.onUnlockPixels] }
    else
      Except.ok { w with ref := { w.ref with fLockCount := count } }
  else Except.error Fault.assertion

/-- The method `SkPixelRef::onLockPixelsAreWritable`, the base-class answer. -/
def onLockPixelsAreWritable : Bool := true

/-- The method `SkPixelRef::lockPixelsAreWritable`. -/
def lockPixelsAreWritable (k : Hooks σ) (w : World σ) : Bool :=
  k.onLockPixelsAreWritable w.sub

/-- The method `SkPixelRef::getGenerationID`: the value returned and the world afterwards. -/
def getGenerationID (w : World σ) : Nat × World σ :=
  if 0 = w.ref.fGenerationID then
    let d := SkNextPixelRefGenerationID w.gPixelRefGenerationID
    (d.genID,
     { w with
       ref := { w.ref with fGenerationID := d.genID }
       gPixelRefGenerationID := d.counter
       idsDrawn := w.idsDrawn + 1 })
  else (w.ref.fGenerationID, w)

/-- The method `SkPixelRef::notifyPixelsChanged`. -/
def notifyPixelsChanged (dbg : Bool) (w : World σ) : World σ :=
  let w1 : World σ :=
    if dbg && w.ref.fIsImmutable then
      { w with console := w.console ++
          ["========== notifyPixelsChanged called on immutable pixelref"] }
    else w
  { w1 with ref := { w1.ref with fGenerationID := 0 } }

/-- The method `SkPixelRef::setImmutable`. -/
def setImmutable (w : World σ) : World σ :=
  { w with ref := { w.ref with fIsImmutable := true } }

/-- The method `SkPixelRef::onReadPixels`, the base-class answer. -/
def onReadPixels (_dst _subset : Nat) : Bool := false

/-- The method `SkPixelRef::readPixels`: the value returned and the world afterwards. -/
def readPixels (k : Hooks σ) (w : World σ) (dst subset : Nat) : Bool × World σ :=
  ((k.onReadPixels w.sub dst subset).1, { w with sub := (k.onReadPixels w.sub dst subset).2 })

end SkPixelRef

/-- The hooks of a subtype that overrides neither `onLockPixelsAreWritable` nor
`onReadPixels`. -/
def Hooks.withBaseDefaults {σ : Type} (lock : σ → Nat → Nat × Nat × σ) (unlock : σ → σ) :
    Hooks σ :=
  { onLockPixels := lock
    onUnlockPixels := unlock
    onLockPixelsAreWritable := fun _ => SkPixelRef.onLockPixelsAreWritable
    onReadPixels := fun s dst subset => (SkPixelRef.onReadPixels dst subset, s) }

/-- A call made on the handle, or (`otherDraw`) a generation ID drawn for some other
handle of the process. -/
inductive Op where
  | lockPixels
  | unlockPixels
  | lockPixelsAreWritable
  | getGenerationID
  | notifyPixelsChanged
  | setImmutable
  | readPixels (dst subset : Nat)
  | flatten
  | otherDraw
  deriving DecidableEq, Repr

variable {σ : Type}

/-- The world after one call. -/
def step (dbg : Bool) (k : Hooks σ) (w : World σ) : Op → Except Fault (World σ)
  | Op.lockPixels => Except.ok (SkPixelRef.lockPixels k w)
  | Op.unlockPixels => SkPixelRef.unlockPixels dbg k w
  | Op.lockPixelsAreWritable => Except.ok w
  | Op.getGenerationID => Except.ok (SkPixelRef.getGenerationID w).2
  | Op.notifyPixelsChanged => Except.ok (SkPixelRef.notifyPixelsChanged dbg w)
  | Op.setImmutable => Except.ok (SkPixelRef.setImmutable w)
  | Op.readPixels dst subset => Except.ok (SkPixelRef.readPixels k w dst subset).2
  | Op.flatten => Except.ok { w with out := SkPixelRef.flatten w.ref w.out }
  | Op.otherDraw =>
      Except.ok { w with
        gPixelRefGenerationID := (SkNextPixelRefGenerationID w.gPixelRefGenerationID).counter
        idsDrawn := w.idsDrawn + 1 }

/-- The world after a sequence of calls, stopping at the first fault. -/
def run (dbg : Bool) (k : Hooks σ) (w : World σ) : List Op → Except Fault (World σ)
  | [] => Except.ok w
  | op :: rest =>
      match step dbg k w op with
      | Except.ok w1 => run dbg k w1 rest
      | Except.error e => Except.error e

/-- The world at process start around a freshly constructed handle. -/
def World.fresh (mutex : Option Nat) (s : σ) : World σ :=
  { ref := SkPixelRef.create mutex
    sub := s
    gPixelRefGenerationID := 0
    out := { items := [] }
    console := []
    hookCalls := []
    idsDrawn := 0 }

/-! ## The factory registry -/

/-- The constant `#define MAX_PAIR_COUNT 16`. -/
def MAX_PAIR_COUNT : Nat := 16

/-- The type `struct Pair`: a name (`none` is a null `const char*`, otherwise the characters
before the terminating NUL) and a factory pointer. -/
structure Pair where
  fName : Option String
  fFactory : Nat
  deriving DecidableEq, Repr

/-- The statics of the registry: `gOnce` (local to `Register`), `gCount` and `gPairs`.
`gCount` is only ever set to 0 and incremented, so it is kept as a natural number. -/
structure Registry where
  gOnce : Bool
  gCount : Nat
  gPairs : List Pair
  deriving DecidableEq, Repr

/-- The statics as the loader leaves them: zero-initialised. -/
def Registry.initial : Registry :=
  { gOnce := false
    gCount := 0
    gPairs := List.replicate MAX_PAIR_COUNT { fName := none, fFactory := NULL } }

/-- The C library `strcmp` on the characters of two strings; only the sign of the
result is specified, so the model returns -1, 0 or 1. -/
def strcmpChars : List Char → List Char → Int
  | [], [] => 0
  | [], _ :: _ => -1
  | _ :: _, [] => 1
  | a :: as, b :: bs =>
      if a = b then strcmpChars as bs else if a.toNat < b.toNat then -1 else 1

/-- The function `strcmp(s1, s2)` on two non-null strings. -/
def strcmp (s1 s2 : String) : Int := strcmpChars s1.data s2.data

namespace SkPixelRef

/-- The method `SkPixelRef::Register(name, factory)`; `none` is a null `name`.  The store into
`gPairs[gCount]` has defined behaviour only below `MAX_PAIR_COUNT`. -/
def Register (dbg : Bool) (r : Registry) (name : Option String) (factory : Nat) :
    Except Fault Registry :=
  if !SkASSERT dbg name.isSome then Except.error Fault.assertion
  else if !SkASSERT dbg (factory != NULL) then Except.error Fault.assertion
  else
    let count := if !r.gOnce then 0 else r.gCount
    if !SkASSERT dbg (decide (count < MAX_PAIR_COUNT)) then Except.error Fault.assertion
    else if count < MAX_PAIR_COUNT then
      Except.ok
        { gOnce := true
          gCount := count + 1
          gPairs := r.gPairs.set count { fName := name, fFactory := factory } }
    else Except.error Fault.undefinedBehaviour

/-- The loop of `NameToFactory`, `for (int i = gCount - 1; i >= 0; --i)`, with `i + 1`
as the recursion argument.  Reading past the table or comparing a null name has no
defined behaviour. -/
def nameScan (pairs : List Pair) (name : String) : Nat → Except Fault Nat
  | 0 => Except.ok NULL
  | i + 1 =>
      match pairs[i]? with
      | none => Except.error Fault.undefinedBehaviour
      | some p =>
          match p.fName with
          | none => Except.error Fault.undefinedBehaviour
          | some s => if strcmp s name = 0 then Except.ok p.fFactory else nameScan pairs name i

/-- The method `SkPixelRef::NameToFactory(name)` for a non-null `name`.  (The debug-only
`report_no_entries` writes a console message and does not affect the result.) -/
def NameToFactory (r : Registry) (name : String) : Except Fault Nat :=
  nameScan r.gPairs name r.gCount

/-- The loop of `FactoryToName`, with `i + 1` as the recursion argument. -/
def factoryScan (pairs : List Pair) (fact : Nat) : Nat → Except Fault (Option String)
  | 0 => Except.ok none
  | i + 1 =>
      match pairs[i]? with
      | none => Except.error Fault.undefinedBehaviour
      | some p => if p.fFactory = fact then Except.ok p.fName else factoryScan pairs fact i

/-- The method `SkPixelRef::FactoryToName(fact)`; the result `none` is the null pointer. -/
def FactoryToName (r : Registry) (fact : Nat) : Except Fault (Option String) :=
  factoryScan r.gPairs fact r.gCount

end SkPixelRef

/-- The arguments of one `Register` call. -/
structure RegisterCall where
  name : Option String
  factory : Nat
  deriving DecidableEq, Repr

/-- The registry after a sequence of `Register` calls, stopping at the first fault. -/
def RegisterAll (dbg : Bool) (r : Registry) : List RegisterCall → Except Fault Registry
  | [] => Except.ok r
  | c :: rest =>
      match SkPixelRef.Register dbg r c.name c.factory with
      | Except.ok r1 => RegisterAll dbg r1 rest
      | Except.error e => Except.error e

end Skia

namespace Skia

/-! ## Sample subtypes and call patterns used to state the results -/

/-- A subtype whose `onLockPixels` fails to materialise: it returns `NULL` and leaves
the colour-table slot as it found it. -/
def failingPixelRef : Hooks Unit :=
  Hooks.withBaseDefaults (fun s ct => (NULL, ct, s)) id

/-- A subtype whose `onLockPixels` hands out the buffer at address 4096 and counts, in
its own state, how many times it did so. -/
def mallocPixelRef : Hooks Nat :=
  Hooks.withBaseDefaults (fun s _ => (4096, NULL, s + 1)) id

/-- Whether every `unlockPixels` of the sequence is preceded by a `lockPixels` not yet
matched, given `depth` unmatched locks at its start. -/
def pairedFrom (depth : Nat) (ops : List Op) : Bool :=
  match ops with
  | [] => true
  | Op.lockPixels :: rest => pairedFrom (depth + 1) rest
  | Op.unlockPixels :: rest => decide (0 < depth) && pairedFrom (depth - 1) rest
  | _ :: rest => pairedFrom depth rest

/-- A sequence of calls on a handle without outstanding locks is well paired. -/
def wellPaired (ops : List Op) : Bool := pairedFrom 0 ops

/-- The values `fLockCount` takes along a run: before the first call and after each
call that returns. -/
def lockCountTrace {σ : Type} (dbg : Bool) (k : Hooks σ) (w : World σ) : List Op → List Int
  | [] => [w.ref.fLockCount]
  | op :: rest =>
      w.ref.fLockCount ::
        (match step dbg k w op with
          | Except.ok w1 => lockCountTrace dbg k w1 rest
          | Except.error _ => [])

/-- Number of steps of a trace of lock counts that go from 0 to 1. -/
def transitions01 : List Int → Nat
  | a :: b :: rest => (if a = 0 ∧ b = 1 then 1 else 0) + transitions01 (b :: rest)
  | _ => 0

/-- Before the 32-bit counter wraps: while fewer than `2 ^ 32 - 1` IDs have been drawn,
the static counter equals the number of IDs drawn, the ID cached by the handle is one of
those, the value `v` is one of those, and the cached ID is stale (0) or newer than `v`. -/
def CounterInv {σ : Type} (v : Nat) (w : World σ) : Prop :=
  w.idsDrawn < WORD - 1 →
    w.gPixelRefGenerationID = w.idsDrawn ∧
      w.ref.fGenerationID ≤ w.gPixelRefGenerationID ∧
      v ≤ w.idsDrawn ∧
      (w.ref.fGenerationID = 0 ∨ v < w.ref.fGenerationID)

/-- A registry that holds exactly the pairs of the calls `calls`, in call order, in the
first `gCount` slots of its table. -/
def Registry.Holds (calls : List RegisterCall) (r : Registry) : Prop :=
  (r.gOnce = true ∨ (calls = [] ∧ r.gCount = 0)) ∧
    r.gCount = calls.length ∧
    r.gPairs.length = MAX_PAIR_COUNT ∧
    ∀ (i : Nat) (c : RegisterCall), calls[i]? = some c →
      r.gPairs[i]? = some (Pair.mk c.name c.factory)

/-- The registrations of the spec's example: A -> f1, B -> f2, then A -> f3, with the
factories at addresses 1, 2 and 3. -/
def sampleCalls : List RegisterCall :=
  [{ name := some "A", factory := 1 }, { name := some "B", factory := 2 },
   { name := some "A", factory := 3 }]

/-- Sixteen registrations, which fill the table: the names N, NN, NNN, ... with the
factories at addresses 1 to 16. -/
def fullCalls : List RegisterCall :=
  (List.range 16).map
    (fun i => { name := some (String.mk (List.replicate (i + 1) (Char.ofNat 78))),
                factory := i + 1 })

/-- The statics after the calls of `sampleCalls`. -/
def sampleRegistry : Registry :=
  { gOnce := true
    gCount := 3
    gPairs :=
      [{ fName := some "A", fFactory := 1 }, { fName := some "B", fFactory := 2 },
       { fName := some "A", fFactory := 3 }] ++
        List.replicate 13 { fName := none, fFactory := NULL } }

/-- Number of `onLockPixels` invocations in a record of hook calls. -/
def materializeCalls (calls : List HookCall) : Nat := calls.count HookCall.onLockPixels

/-- Number of `onUnlockPixels` invocations in a record of hook calls. -/
def releaseCalls (calls : List HookCall) : Nat := calls.count HookCall.onUnlockPixels

/-- Number of steps of a trace of lock counts that go from 1 to 0. -/
def transitions10 : List Int → Nat
  | a :: b :: rest => (if a = 1 ∧ b = 0 then 1 else 0) + transitions10 (b :: rest)
  | _ => 0

/-- Number of `lockPixels` calls in a sequence of calls. -/
def countLocks (ops : List Op) : Nat := ops.count Op.lockPixels

/-- Number of `unlockPixels` calls in a sequence of calls. -/
def countUnlocks (ops : List Op) : Nat := ops.count Op.unlockPixels

/-- The calls one thread makes: `pairs` times a `lockPixels` followed by an
`unlockPixels`. -/
def threadBody : Nat → List Op
  | 0 => []
  | pairs + 1 => Op.lockPixels :: Op.unlockPixels :: threadBody pairs

/-- An interleaving of threads whose calls are atomic (each call holds the handle's mutex
from entry to exit).  `progs` holds the calls each thread has still to make and the
schedule names, step by step, the thread that makes its next call; a step that names a
thread with nothing left to do, or no thread, is idle.  Returns the calls in the order
the handle sees them and what is left of each thread. -/
def interleave : List (List Op) → List Nat → List Op × List (List Op)
  | progs, [] => ([], progs)
  | progs, i :: rest =>
      match progs[i]? with
      | some (op :: t) =>
          (op :: (interleave (progs.set i t) rest).1, (interleave (progs.set i t) rest).2)
      | _ => interleave progs rest

/-- The locks a thread holds, read off the calls it has still to make: unlocks minus
locks to come. -/
def owed (t : List Op) : Nat := countUnlocks t - countLocks t

/-- The locks held by all threads together. -/
def heldBy (progs : List (List Op)) : Nat := (progs.map owed).sum

/-- The values returned by `n` consecutive calls of `SkNextPixelRefGenerationID`, the
static counter holding `g` before the first. -/
def drawSeq : Nat → Nat → List Nat
  | _, 0 => []
  | g, n + 1 =>
      (SkNextPixelRefGenerationID g).genID ::
        drawSeq (SkNextPixelRefGenerationID g).counter n

/-- The static counter after `n` consecutive calls of `SkNextPixelRefGenerationID`,
the counter holding `g` before the first. -/
def counterAfter : Nat → Nat → Nat
  | g, 0 => g
  | g, n + 1 => counterAfter (SkNextPixelRefGenerationID g).counter n

end Skia

namespace Skia
open SkPixelRef

variable {σ : Type}

/-! ## The generation counter in closed form -/

theorem genIDLoop_eq (g incs : Nat) :
    genIDLoop g incs =
      if (g + 1) % WORD = 0 then { genID := 1, counter := 1, incs := incs + 2 }
      else { genID := (g + 1) % WORD, counter := (g + 1) % WORD, incs := incs + 1 } := by
  rw [genIDLoop]
  by_cases h : (g + 1) % WORD = 0
  · have h1 : (0 : Nat) = ((sk_atomic_inc g).1 + 1) % WORD := by
      simp only [sk_atomic_inc]; exact h.symm
    rw [dif_pos h1, if_pos h, genIDLoop]
    have h2 : (sk_atomic_inc g).2 = 0 := by simp only [sk_atomic_inc]; exact h
    have h3 : ¬ ((0 : Nat) = ((sk_atomic_inc (sk_atomic_inc g).2).1 + 1) % WORD) := by
      rw [h2]; simp [sk_atomic_inc, WORD]
    rw [dif_neg h3, h2]
    simp [sk_atomic_inc, WORD]
  · have h1 : ¬ ((0 : Nat) = ((sk_atomic_inc g).1 + 1) % WORD) := by
      simp only [sk_atomic_inc]; exact fun e => h e.symm
    rw [dif_neg h1, if_neg h]
    simp [sk_atomic_inc]

theorem SkNextPixelRefGenerationID_eq (g : Nat) :
    SkNextPixelRefGenerationID g =
      if (g + 1) % WORD = 0 then { genID := 1, counter := 1, incs := 2 }
      else { genID := (g + 1) % WORD, counter := (g + 1) % WORD, incs := 1 } := by
  rw [SkNextPixelRefGenerationID, genIDLoop_eq]

theorem SkNextPixelRefGenerationID_genID_ne_zero (g : Nat) :
    (SkNextPixelRefGenerationID g).genID ≠ 0 := by
  rw [SkNextPixelRefGenerationID_eq]
  by_cases h : (g + 1) % WORD = 0
  · rw [if_pos h]; decide
  · rw [if_neg h]; exact h

theorem SkNextPixelRefGenerationID_counter (g : Nat) :
    (SkNextPixelRefGenerationID g).counter = (SkNextPixelRefGenerationID g).genID := by
  rw [SkNextPixelRefGenerationID_eq]
  by_cases h : (g + 1) % WORD = 0
  · rw [if_pos h]
  · rw [if_neg h]

/-- Below the last 32-bit pattern a draw returns the successor of the counter. -/
theorem SkNextPixelRefGenerationID_succ (g : Nat) (h : g + 1 < WORD) :
    SkNextPixelRefGenerationID g = { genID := g + 1, counter := g + 1, incs := 1 } := by
  rw [SkNextPixelRefGenerationID_eq, Nat.mod_eq_of_lt h, if_neg (Nat.succ_ne_zero g)]

/-! ## Sequences of calls -/

theorem run_nil (dbg : Bool) (k : Hooks σ) (w : World σ) : run dbg k w [] = Except.ok w := rfl

theorem run_cons_ok (dbg : Bool) (k : Hooks σ) (w w1 : World σ) (op : Op) (rest : List Op)
    (h : step dbg k w op = Except.ok w1) :
    run dbg k w (op :: rest) = run dbg k w1 rest := by
  simp only [run, h]

theorem run_cons_inv (dbg : Bool) (k : Hooks σ) (w w2 : World σ) (op : Op) (rest : List Op)
    (h : run dbg k w (op :: rest) = Except.ok w2) :
    ∃ w1, step dbg k w op = Except.ok w1 ∧ run dbg k w1 rest = Except.ok w2 := by
  simp only [run] at h
  cases hs : step dbg k w op with
  | error e => rw [hs] at h; cases h
  | ok w1 => rw [hs] at h; exact ⟨w1, rfl, h⟩

theorem run_append (dbg : Bool) (k : Hooks σ) (xs ys : List Op) :
    ∀ w w1 : World σ, run dbg k w xs = Except.ok w1 →
      run dbg k w (xs ++ ys) = run dbg k w1 ys := by
  induction xs with
  | nil => intro w w1 h; cases h; rfl
  | cons op rest ih =>
      intro w w1 h
      obtain ⟨w0, hs, hr⟩ := run_cons_inv dbg k w w1 op rest h
      rw [List.cons_append, run_cons_ok dbg k w w0 op _ hs]
      exact ih w0 w1 hr

/-- A property kept by every call that returns is kept by every run that returns. -/
theorem run_preserves (dbg : Bool) (k : Hooks σ) (P : World σ → Prop) (ops : List Op)
    (hstep : ∀ w w1 op, op ∈ ops → P w → step dbg k w op = Except.ok w1 → P w1) :
    ∀ w w1 : World σ, P w → run dbg k w ops = Except.ok w1 → P w1 := by
  induction ops with
  | nil => intro w w1 hP h; cases h; exact hP
  | cons op rest ih =>
      intro w w1 hP h
      obtain ⟨w0, hs, hr⟩ := run_cons_inv dbg k w w1 op rest h
      exact ih (fun a b o ho => hstep a b o (List.mem_cons_of_mem _ ho)) w0 w1
        (hstep w w0 op (List.mem_cons_self _ _) hP hs) hr

/-! ## The two branches of `lockPixels` and `unlockPixels` -/

theorem lockPixels_of_zero (k : Hooks σ) (w : World σ) (h : w.ref.fLockCount = 0) :
    lockPixels k w =
      { w with
        ref := { w.ref with
          fLockCount := 1
          fPixels := (k.onLockPixels w.sub w.ref.fColorTable).1
          fColorTable := (k.onLockPixels w.sub w.ref.fColorTable).2.1 }
        sub := (k.onLockPixels w.sub w.ref.fColorTable).2.2
        hookCalls := w.hookCalls ++ [HookCall.onLockPixels] } := by
  show (if 1 = w.ref.fLockCount + 1 then _ else _) = _
  rw [if_pos (by rw [h]; rfl)]
  simp only [h]
  rfl

theorem lockPixels_of_ne_zero (k : Hooks σ) (w : World σ) (h : w.ref.fLockCount ≠ 0) :
    lockPixels k w = { w with ref := { w.ref with fLockCount := w.ref.fLockCount + 1 } } := by
  show (if 1 = w.ref.fLockCount + 1 then _ else _) = _
  rw [if_neg (by omega)]

theorem unlockPixels_of_one (dbg : Bool) (k : Hooks σ) (w : World σ)
    (h : w.ref.fLockCount = 1) :
    unlockPixels dbg k w =
      Except.ok { w with
        ref := { w.ref with fLockCount := 0, fPixels := NULL, fColorTable := NULL }
        sub := k.onUnlockPixels w.sub
        hookCalls := w.hookCalls ++ [HookCall.onUnlockPixels] } := by
  unfold unlockPixels
  have ha : SkASSERT dbg (decide (w.ref.fLockCount > 0)) = true := by
    rw [h]; cases dbg <;> rfl
  rw [if_pos ha]
  show (if 0 = w.ref.fLockCount - 1 then _ else _) = _
  rw [if_pos (by rw [h]; rfl)]
  simp only [h]
  rfl

theorem unlockPixels_of_gt_one (dbg : Bool) (k : Hooks σ) (w : World σ)
    (h : 1 < w.ref.fLockCount) :
    unlockPixels dbg k w =
      Except.ok { w with ref := { w.ref with fLockCount := w.ref.fLockCount - 1 } } := by
  unfold unlockPixels
  have ha : SkASSERT dbg (decide (w.ref.fLockCount > 0)) = true := by
    have : decide (w.ref.fLockCount > 0) = true := decide_eq_true (by omega)
    rw [this]; cases dbg <;> rfl
  rw [if_pos ha]
  show (if 0 = w.ref.fLockCount - 1 then _ else _) = _
  rw [if_neg (by omega)]

/-- Whatever the build, a returning `unlockPixels` took one of its two branches. -/
theorem unlockPixels_ok_cases (dbg : Bool) (k : Hooks σ) (w w1 : World σ)
    (h : unlockPixels dbg k w = Except.ok w1) :
    (w.ref.fLockCount = 1 ∧
        w1 = { w with
          ref := { w.ref with fLockCount := 0, fPixels := NULL, fColorTable := NULL }
          sub := k.onUnlockPixels w.sub
          hookCalls := w.hookCalls ++ [HookCall.onUnlockPixels] }) ∨
      (w.ref.fLockCount ≠ 1 ∧
        w1 = { w with ref := { w.ref with fLockCount := w.ref.fLockCount - 1 } }) := by
  by_cases h1 : w.ref.fLockCount = 1
  · left
    rw [unlockPixels_of_one dbg k w h1] at h
    exact ⟨h1, (Except.ok.inj h).symm⟩
  · right
    refine ⟨h1, ?_⟩
    unfold unlockPixels at h
    by_cases ha : SkASSERT dbg (decide (w.ref.fLockCount > 0)) = true
    · rw [if_pos ha] at h
      have h2 : ¬ (0 = w.ref.fLockCount - 1) := by omega
      change (if 0 = w.ref.fLockCount - 1 then _ else _) = _ at h
      rw [if_neg h2] at h
      exact (Except.ok.inj h).symm
    · rw [if_neg ha] at h
      cases h

/-! ## Generation identity -/

/-- The ID left in the handle by `getGenerationID` is not 0. -/
theorem getGenerationID_cache_ne_zero (w : World σ) :
    (getGenerationID w).2.ref.fGenerationID ≠ 0 := by
  unfold getGenerationID
  by_cases h : 0 = w.ref.fGenerationID
  · simp only [if_pos h]
    exact SkNextPixelRefGenerationID_genID_ne_zero _
  · simp only [if_neg h]
    exact fun e => h e.symm

/-- C3: for every handle state and every value of the process-wide counter,
`getGenerationID` returns a non-zero value and leaves a non-zero `fGenerationID`
cached in the handle. -/
theorem getGenerationID_never_zero (w : World σ) :
    (getGenerationID w).1 ≠ 0 ∧ (getGenerationID w).2.ref.fGenerationID ≠ 0 := by
  refine ⟨?_, getGenerationID_cache_ne_zero w⟩
  unfold getGenerationID
  by_cases h : 0 = w.ref.fGenerationID
  · simp only [if_pos h]
    exact SkNextPixelRefGenerationID_genID_ne_zero _
  · simp only [if_neg h]
    exact fun e => h e.symm

theorem getGenerationID_cached (w : World σ) (h : w.ref.fGenerationID ≠ 0) :
    getGenerationID w = (w.ref.fGenerationID, w) := by
  unfold getGenerationID
  rw [if_neg (fun e => h e.symm)]

theorem getGenerationID_fst (w : World σ) :
    (getGenerationID w).1 = (getGenerationID w).2.ref.fGenerationID := by
  unfold getGenerationID
  by_cases h : 0 = w.ref.fGenerationID
  · simp only [if_pos h]
  · simp only [if_neg h]

/-- Every call other than `notifyPixelsChanged` leaves a cached generation ID alone. -/
theorem step_keeps_generationID (dbg : Bool) (k : Hooks σ) (w w1 : World σ) (op : Op)
    (hop : op ≠ Op.notifyPixelsChanged) (h0 : w.ref.fGenerationID ≠ 0)
    (hs : step dbg k w op = Except.ok w1) :
    w1.ref.fGenerationID = w.ref.fGenerationID := by
  cases op with
  | notifyPixelsChanged => exact absurd rfl hop
  | lockPixels =>
      simp only [step, Except.ok.injEq] at hs
      subst hs
      by_cases h : w.ref.fLockCount = 0
      · rw [lockPixels_of_zero k w h]
      · rw [lockPixels_of_ne_zero k w h]
  | unlockPixels =>
      simp only [step] at hs
      rcases unlockPixels_ok_cases dbg k w w1 hs with ⟨_, e⟩ | ⟨_, e⟩ <;> (subst e; rfl)
  | getGenerationID =>
      simp only [step, Except.ok.injEq] at hs
      subst hs
      rw [getGenerationID_cached w h0]
  | lockPixelsAreWritable => simp only [step, Except.ok.injEq] at hs; subst hs; rfl
  | setImmutable => simp only [step, Except.ok.injEq] at hs; subst hs; rfl
  | readPixels dst subset => simp only [step, Except.ok.injEq] at hs; subst hs; rfl
  | flatten => simp only [step, Except.ok.injEq] at hs; subst hs; rfl
  | otherDraw => simp only [step, Except.ok.injEq] at hs; subst hs; rfl

/-- C4: two `getGenerationID` calls on a handle with no `notifyPixelsChanged` between
them return the same value, whatever other calls on the handle (`lockPixels`,
`unlockPixels`, `setImmutable`, ...) and draws for other handles happen in between; the
second call returns the cached value and changes nothing, so it does not advance the
process-wide counter. -/
theorem getGenerationID_stable (dbg : Bool) (k : Hooks σ) (w w1 : World σ) (ops : List Op)
    (hno : Op.notifyPixelsChanged ∉ ops)
    (hrun : run dbg k (getGenerationID w).2 ops = Except.ok w1) :
    (getGenerationID w1).1 = (getGenerationID w).1 ∧
      (getGenerationID w1).1 = w1.ref.fGenerationID ∧
      (getGenerationID w1).2 = w1 ∧
      (getGenerationID w1).2.gPixelRefGenerationID = w1.gPixelRefGenerationID := by
  have hkeep : w1.ref.fGenerationID = (getGenerationID w).2.ref.fGenerationID ∧
      w1.ref.fGenerationID ≠ 0 := by
    refine run_preserves dbg k
      (fun x => x.ref.fGenerationID = (getGenerationID w).2.ref.fGenerationID ∧
        x.ref.fGenerationID ≠ 0) ops ?_ _ w1 ⟨rfl, getGenerationID_cache_ne_zero w⟩ hrun
    intro a b op hop hP hs
    have hne : op ≠ Op.notifyPixelsChanged := fun e => hno (e ▸ hop)
    have := step_keeps_generationID dbg k a b op hne hP.2 hs
    exact ⟨this.trans hP.1, this ▸ hP.2⟩
  rw [getGenerationID_cached w1 hkeep.2]
  exact ⟨hkeep.1.trans (getGenerationID_fst w).symm, rfl, rfl, rfl⟩

/-- The C4 result at a concrete run: a handle backed by `mallocPixelRef` is queried,
locked, made immutable, sees another handle draw an ID, is unlocked, and is queried again. -/
theorem getGenerationID_stable_witness :
    Op.notifyPixelsChanged ∉
        [Op.lockPixels, Op.setImmutable, Op.otherDraw, Op.unlockPixels] ∧
      (getGenerationID
          { ref := { SkPixelRef.create none with fGenerationID := 1, fIsImmutable := true }
            sub := 1
            gPixelRefGenerationID := 2
            out := { items := [] }
            console := []
            hookCalls := [HookCall.onLockPixels, HookCall.onUnlockPixels]
            idsDrawn := 2 : World Nat }).1 =
        (getGenerationID (World.fresh none (0 : Nat))).1 :=
  ⟨by decide,
   (getGenerationID_stable false mallocPixelRef (World.fresh none (0 : Nat)) _
      [Op.lockPixels, Op.setImmutable, Op.otherDraw, Op.unlockPixels] (by decide)
      (by simp [run, step, getGenerationID, World.fresh, SkPixelRef.create,
            SkNextPixelRefGenerationID_eq, WORD, lockPixels, unlockPixels, SkASSERT,
            setImmutable, mallocPixelRef, Hooks.withBaseDefaults, NULL])).1⟩

/-! ## Immutability -/

/-- No call on the handle clears `fIsImmutable`. -/
theorem step_keeps_immutable (dbg : Bool) (k : Hooks σ) (w w1 : World σ) (op : Op)
    (himm : w.ref.fIsImmutable = true) (hs : step dbg k w op = Except.ok w1) :
    w1.ref.fIsImmutable = true := by
  cases op with
  | lockPixels =>
      simp only [step, Except.ok.injEq] at hs
      subst hs
      by_cases h : w.ref.fLockCount = 0
      · rw [lockPixels_of_zero k w h]; exact himm
      · rw [lockPixels_of_ne_zero k w h]; exact himm
  | unlockPixels =>
      simp only [step] at hs
      rcases unlockPixels_ok_cases dbg k w w1 hs with ⟨_, e⟩ | ⟨_, e⟩ <;> (subst e; exact himm)
  | getGenerationID =>
      simp only [step, Except.ok.injEq] at hs
      subst hs
      unfold getGenerationID
      by_cases h : 0 = w.ref.fGenerationID
      · simp only [if_pos h]; exact himm
      · simp only [if_neg h]; exact himm
  | notifyPixelsChanged =>
      simp only [step, Except.ok.injEq] at hs
      subst hs
      unfold notifyPixelsChanged
      by_cases h : (dbg && w.ref.fIsImmutable) = true
      · simp only [if_pos h]; exact himm
      · simp only [if_neg h]; exact himm
  | lockPixelsAreWritable => simp only [step, Except.ok.injEq] at hs; subst hs; exact himm
  | setImmutable => simp only [step, Except.ok.injEq] at hs; subst hs; rfl
  | readPixels dst subset => simp only [step, Except.ok.injEq] at hs; subst hs; exact himm
  | flatten => simp only [step, Except.ok.injEq] at hs; subst hs; exact himm
  | otherDraw => simp only [step, Except.ok.injEq] at hs; subst hs; exact himm

/-- C6: immutability is one-way.  `setImmutable` sets `fIsImmutable` and a second call
changes nothing; and once `fIsImmutable` is true it is still true after every sequence
of calls on the handle (`lockPixels`, `unlockPixels`, `getGenerationID`,
`notifyPixelsChanged`, `setImmutable`, `readPixels`, `flatten`, ...), in either build
and for every behaviour of the subtype's hooks. -/
theorem setImmutable_one_way (dbg : Bool) (k : Hooks σ) (w w1 : World σ) (ops : List Op)
    (himm : w.ref.fIsImmutable = true) (hrun : run dbg k w ops = Except.ok w1) :
    w1.ref.fIsImmutable = true ∧
      (∀ w0 : World σ, (setImmutable w0).ref.fIsImmutable = true ∧
        setImmutable (setImmutable w0) = setImmutable w0) :=
  ⟨run_preserves dbg k (fun x => x.ref.fIsImmutable = true) ops
      (fun a b op _ hP hs => step_keeps_immutable dbg k a b op hP hs) w w1 himm hrun,
   fun _ => ⟨rfl, rfl⟩⟩

/-- The C6 result at a concrete run: a fresh handle is made immutable and then every
operation is applied to it once, in a debug build. -/
theorem setImmutable_one_way_witness :
    (setImmutable (World.fresh none (0 : Nat))).ref.fIsImmutable = true ∧
      run true mallocPixelRef (setImmutable (World.fresh none (0 : Nat)))
          [Op.lockPixels, Op.getGenerationID, Op.notifyPixelsChanged, Op.setImmutable,
           Op.readPixels 0 0, Op.flatten, Op.unlockPixels] =
        Except.ok
          { ref := { SkPixelRef.create none with fIsImmutable := true }
            sub := 1
            gPixelRefGenerationID := 1
            out := { items := [Item.bool true] }
            console := ["========== notifyPixelsChanged called on immutable pixelref"]
            hookCalls := [HookCall.onLockPixels, HookCall.onUnlockPixels]
            idsDrawn := 1 } ∧
      (SkPixelRef.fIsImmutable { SkPixelRef.create none with fIsImmutable := true } = true ∧
        ∀ w0 : World Nat, (setImmutable w0).ref.fIsImmutable = true ∧
          setImmutable (setImmutable w0) = setImmutable w0) :=
  have hrun : run true mallocPixelRef (setImmutable (World.fresh none (0 : Nat)))
      [Op.lockPixels, Op.getGenerationID, Op.notifyPixelsChanged, Op.setImmutable,
       Op.readPixels 0 0, Op.flatten, Op.unlockPixels] =
      Except.ok
        { ref := { SkPixelRef.create none with fIsImmutable := true }
          sub := 1
          gPixelRefGenerationID := 1
          out := { items := [Item.bool true] }
          console := ["========== notifyPixelsChanged called on immutable pixelref"]
          hookCalls := [HookCall.onLockPixels, HookCall.onUnlockPixels]
          idsDrawn := 1 } := by
    simp [run, step, getGenerationID, World.fresh, SkPixelRef.create,
      SkNextPixelRefGenerationID_eq, WORD, lockPixels, unlockPixels, SkASSERT,
      setImmutable, notifyPixelsChanged, readPixels, flatten, mallocPixelRef,
      Hooks.withBaseDefaults, NULL, SkFlattenableWriteBuffer.writeBool,
      SkPixelRef.onReadPixels]
  ⟨rfl, hrun, setImmutable_one_way true mallocPixelRef _ _ _ rfl hrun⟩

/-! ## Flattening -/

/-- C7: serialization round trip.  `flatten` appends exactly one item to the write
buffer, the boolean `fIsImmutable`; a handle constructed from a read buffer positioned
at that boolean (whatever follows it in the stream) has the same `fIsImmutable`, has
`fLockCount = 0`, `fGenerationID = 0` and null `fPixels` / `fColorTable`, and the read
position has moved past exactly that one boolean. -/
theorem flatten_roundtrip (h : SkPixelRef) (buffer : SkFlattenableWriteBuffer)
    (rest : List Item) (mutex : Option Nat) :
    (flatten h buffer).items = buffer.items ++ [Item.bool h.fIsImmutable] ∧
      (createFromBuffer
          { items := (flatten h buffer).items ++ rest, pos := buffer.items.length } mutex).1 =
        { SkPixelRef.create mutex with fIsImmutable := h.fIsImmutable } ∧
      (createFromBuffer
          { items := (flatten h buffer).items ++ rest, pos := buffer.items.length } mutex).2 =
        { items := (flatten h buffer).items ++ rest, pos := buffer.items.length + 1 } ∧
      ({ SkPixelRef.create mutex with fIsImmutable := h.fIsImmutable } : SkPixelRef).fLockCount = 0 ∧
      ({ SkPixelRef.create mutex with fIsImmutable := h.fIsImmutable } : SkPixelRef).fGenerationID = 0 ∧
      ({ SkPixelRef.create mutex with fIsImmutable := h.fIsImmutable } : SkPixelRef).fPixels = NULL ∧
      ({ SkPixelRef.create mutex with fIsImmutable := h.fIsImmutable } : SkPixelRef).fColorTable = NULL := by
  have hget : (buffer.items ++ [Item.bool h.fIsImmutable] ++ rest)[buffer.items.length]? =
      some (Item.bool h.fIsImmutable) := by
    rw [List.append_assoc, List.getElem?_append_right (le_refl _)]
    simp
  refine ⟨rfl, ?_, rfl, rfl, rfl, rfl, rfl⟩
  simp only [createFromBuffer, SkFlattenableReadBuffer.readBool, flatten,
    SkFlattenableWriteBuffer.writeBool, hget, SkPixelRef.create]

/-! ## The lock protocol -/

/-- The only call that can fail is an `unlockPixels` whose assertion fails. -/
theorem step_ok (dbg : Bool) (k : Hooks σ) (w : World σ) (op : Op)
    (h : op = Op.unlockPixels → 0 < w.ref.fLockCount) :
    ∃ w1, step dbg k w op = Except.ok w1 := by
  cases op with
  | unlockPixels =>
      have hpos := h rfl
      by_cases h1 : w.ref.fLockCount = 1
      · exact ⟨_, unlockPixels_of_one dbg k w h1⟩
      · exact ⟨_, unlockPixels_of_gt_one dbg k w (by omega)⟩
  | lockPixels => exact ⟨_, rfl⟩
  | getGenerationID => exact ⟨_, rfl⟩
  | notifyPixelsChanged => exact ⟨_, rfl⟩
  | lockPixelsAreWritable => exact ⟨_, rfl⟩
  | setImmutable => exact ⟨_, rfl⟩
  | readPixels dst subset => exact ⟨_, rfl⟩
  | flatten => exact ⟨_, rfl⟩
  | otherDraw => exact ⟨_, rfl⟩

/-- Calls other than `lockPixels` and `unlockPixels` leave the lock state and the hook
record alone. -/
theorem step_frame (dbg : Bool) (k : Hooks σ) (w w1 : World σ) (op : Op)
    (hl : op ≠ Op.lockPixels) (hu : op ≠ Op.unlockPixels)
    (hs : step dbg k w op = Except.ok w1) :
    w1.ref.fPixels = w.ref.fPixels ∧ w1.ref.fColorTable = w.ref.fColorTable ∧
      w1.ref.fLockCount = w.ref.fLockCount ∧ w1.hookCalls = w.hookCalls := by
  cases op with
  | lockPixels => exact absurd rfl hl
  | unlockPixels => exact absurd rfl hu
  | getGenerationID =>
      simp only [step, Except.ok.injEq] at hs
      subst hs
      unfold getGenerationID
      by_cases h : 0 = w.ref.fGenerationID
      · simp only [if_pos h, and_self]
      · simp only [if_neg h, and_self]
  | notifyPixelsChanged =>
      simp only [step, Except.ok.injEq] at hs
      subst hs
      unfold notifyPixelsChanged
      by_cases h : (dbg && w.ref.fIsImmutable) = true
      · simp only [if_pos h, and_self]
      · simp only [if_neg h, and_self]
  | lockPixelsAreWritable =>
      simp only [step, Except.ok.injEq] at hs; subst hs; exact ⟨rfl, rfl, rfl, rfl⟩
  | setImmutable =>
      simp only [step, Except.ok.injEq] at hs; subst hs; exact ⟨rfl, rfl, rfl, rfl⟩
  | readPixels dst subset =>
      simp only [step, Except.ok.injEq] at hs; subst hs; exact ⟨rfl, rfl, rfl, rfl⟩
  | flatten =>
      simp only [step, Except.ok.injEq] at hs; subst hs; exact ⟨rfl, rfl, rfl, rfl⟩
  | otherDraw =>
      simp only [step, Except.ok.injEq] at hs; subst hs; exact ⟨rfl, rfl, rfl, rfl⟩

theorem lockPixels_lockCount (k : Hooks σ) (w : World σ) :
    (lockPixels k w).ref.fLockCount = w.ref.fLockCount + 1 := by
  by_cases h : w.ref.fLockCount = 0
  · rw [lockPixels_of_zero k w h, h]; rfl
  · rw [lockPixels_of_ne_zero k w h]

theorem unlockPixels_lockCount (dbg : Bool) (k : Hooks σ) (w w1 : World σ)
    (h : unlockPixels dbg k w = Except.ok w1) :
    w1.ref.fLockCount = w.ref.fLockCount - 1 := by
  rcases unlockPixels_ok_cases dbg k w w1 h with ⟨h1, e⟩ | ⟨_, e⟩
  · subst e; rw [h1]; rfl
  · subst e; rfl

theorem pairedFrom_unlock (d : Nat) (rest : List Op)
    (h : pairedFrom d (Op.unlockPixels :: rest) = true) :
    0 < d ∧ pairedFrom (d - 1) rest = true := by
  simp only [pairedFrom, Bool.and_eq_true, decide_eq_true_eq] at h
  exact h

theorem pairedFrom_take (n : Nat) :
    ∀ (ops : List Op) (d : Nat), pairedFrom d ops = true → pairedFrom d (ops.take n) = true := by
  induction n with
  | zero => intro ops d _; rw [List.take_zero]; rfl
  | succ n ih =>
      intro ops d h
      cases ops with
      | nil => exact h
      | cons op rest =>
          rw [List.take_succ_cons]
          cases op with
          | lockPixels => exact ih rest (d + 1) h
          | unlockPixels =>
              obtain ⟨h1, h2⟩ := pairedFrom_unlock d rest h
              simp only [pairedFrom, Bool.and_eq_true, decide_eq_true_eq]
              exact ⟨h1, ih rest (d - 1) h2⟩
          | getGenerationID => exact ih rest _ h
          | notifyPixelsChanged => exact ih rest _ h
          | lockPixelsAreWritable => exact ih rest _ h
          | setImmutable => exact ih rest _ h
          | readPixels dst subset => exact ih rest _ h
          | flatten => exact ih rest _ h
          | otherDraw => exact ih rest _ h

/-- A well-paired run returns, and keeps every property that is kept by each call made
with a non-negative lock count (positive for `unlockPixels`). -/
theorem run_paired (dbg : Bool) (k : Hooks σ) (P : World σ → Prop)
    (hstep : ∀ (w w1 : World σ) (op : Op), P w → 0 ≤ w.ref.fLockCount →
      (op = Op.unlockPixels → 0 < w.ref.fLockCount) →
      step dbg k w op = Except.ok w1 → P w1) :
    ∀ (ops : List Op) (d : Nat) (w : World σ), w.ref.fLockCount = (d : Int) →
      pairedFrom d ops = true → P w →
      ∃ w1, run dbg k w ops = Except.ok w1 ∧ P w1 ∧ 0 ≤ w1.ref.fLockCount := by
  intro ops
  induction ops with
  | nil => intro d w hd _ hP; exact ⟨w, rfl, hP, by omega⟩
  | cons op rest ih =>
      intro d w hd hp hP
      have hu : op = Op.unlockPixels → 0 < w.ref.fLockCount := by
        intro e
        subst e
        have := (pairedFrom_unlock d rest hp).1
        omega
      obtain ⟨w0, hs⟩ := step_ok dbg k w op hu
      have hP0 : P w0 := hstep w w0 op hP (by omega) hu hs
      rw [run_cons_ok dbg k w w0 op rest hs]
      cases op with
      | lockPixels =>
          have hc : w0.ref.fLockCount = ((d + 1 : Nat) : Int) := by
            simp only [step, Except.ok.injEq] at hs
            subst hs
            rw [lockPixels_lockCount, hd]; rfl
          exact ih (d + 1) w0 hc hp hP0
      | unlockPixels =>
          obtain ⟨h1, h2⟩ := pairedFrom_unlock d rest hp
          have hc : w0.ref.fLockCount = ((d - 1 : Nat) : Int) := by
            rw [unlockPixels_lockCount dbg k w w0 hs, hd]
            omega
          exact ih (d - 1) w0 hc h2 hP0
      | getGenerationID =>
          have hc := (step_frame dbg k w w0 _ (by decide) (by decide) hs).2.2.1
          exact ih d w0 (hc.trans hd) hp hP0
      | notifyPixelsChanged =>
          have hc := (step_frame dbg k w w0 _ (by decide) (by decide) hs).2.2.1
          exact ih d w0 (hc.trans hd) hp hP0
      | lockPixelsAreWritable =>
          have hc := (step_frame dbg k w w0 _ (by decide) (by decide) hs).2.2.1
          exact ih d w0 (hc.trans hd) hp hP0
      | setImmutable =>
          have hc := (step_frame dbg k w w0 _ (by decide) (by decide) hs).2.2.1
          exact ih d w0 (hc.trans hd) hp hP0
      | readPixels dst subset =>
          have hc := (step_frame dbg k w w0 _ (by simp) (by simp) hs).2.2.1
          exact ih d w0 (hc.trans hd) hp hP0
      | flatten =>
          have hc := (step_frame dbg k w w0 _ (by decide) (by decide) hs).2.2.1
          exact ih d w0 (hc.trans hd) hp hP0
      | otherDraw =>
          have hc := (step_frame dbg k w w0 _ (by decide) (by decide) hs).2.2.1
          exact ih d w0 (hc.trans hd) hp hP0

/-- The cached pixel pointer is null without a lock; with a lock it is what the hook
returned, hence non-null when the hook never fails. -/
theorem step_keeps_pixels_inv (dbg : Bool) (k : Hooks σ) (w w1 : World σ) (op : Op)
    (hP : (w.ref.fLockCount = 0 → w.ref.fPixels = NULL) ∧
      ((∀ s ct, (k.onLockPixels s ct).1 ≠ NULL) → 0 < w.ref.fLockCount →
        w.ref.fPixels ≠ NULL))
    (h0 : 0 ≤ w.ref.fLockCount) (hu : op = Op.unlockPixels → 0 < w.ref.fLockCount)
    (hs : step dbg k w op = Except.ok w1) :
    (w1.ref.fLockCount = 0 → w1.ref.fPixels = NULL) ∧
      ((∀ s ct, (k.onLockPixels s ct).1 ≠ NULL) → 0 < w1.ref.fLockCount →
        w1.ref.fPixels ≠ NULL) := by
  by_cases hl : op = Op.lockPixels
  · subst hl
    simp only [step, Except.ok.injEq] at hs
    subst hs
    by_cases hz : w.ref.fLockCount = 0
    · rw [lockPixels_of_zero k w hz]
      exact ⟨fun e => absurd (show (1 : Int) = 0 from e) (by decide), fun hk _ => hk _ _⟩
    · rw [lockPixels_of_ne_zero k w hz]
      refine ⟨fun e => ?_, fun hk _ => hP.2 hk (by omega)⟩
      have e1 : w.ref.fLockCount + 1 = 0 := e
      omega
  · by_cases hul : op = Op.unlockPixels
    · subst hul
      have hpos := hu rfl
      simp only [step] at hs
      rcases unlockPixels_ok_cases dbg k w w1 hs with ⟨_, e⟩ | ⟨h1, e⟩
      · subst e
        exact ⟨fun _ => rfl, fun _ hlt => absurd (show (0 : Int) < 0 from hlt) (by decide)⟩
      · subst e
        refine ⟨fun e => ?_, fun hk _ => hP.2 hk hpos⟩
        have e1 : w.ref.fLockCount - 1 = 0 := e
        omega
    · obtain ⟨hpx, _, hc, _⟩ := step_frame dbg k w w1 op hl hul hs
      rw [hpx, hc]
      exact hP

/-- C1 (amended): for every sequence of calls applied to a freshly constructed handle in
which each `unlockPixels` is preceded by an unmatched `lockPixels`, and for every
behaviour of the subtype, after each call (after the first `n` calls, for every `n`)
a non-null `fPixels` implies `fLockCount > 0`; and when `onLockPixels` never returns
`NULL`, `fPixels` is non-null if and only if `fLockCount > 0`. -/
theorem fPixels_nonnull_only_while_locked (dbg : Bool) (k : Hooks σ) (w : World σ)
    (mutex : Option Nat) (ops : List Op) (n : Nat)
    (hfresh : w.ref = SkPixelRef.create mutex) (hp : wellPaired ops = true) :
    ∃ w1, run dbg k w (ops.take n) = Except.ok w1 ∧
      (w1.ref.fPixels ≠ NULL → 0 < w1.ref.fLockCount) ∧
      ((∀ s ct, (k.onLockPixels s ct).1 ≠ NULL) →
        (w1.ref.fPixels ≠ NULL ↔ 0 < w1.ref.fLockCount)) := by
  have h0 : w.ref.fLockCount = ((0 : Nat) : Int) := by rw [hfresh]; rfl
  have hP : (w.ref.fLockCount = 0 → w.ref.fPixels = NULL) ∧
      ((∀ s ct, (k.onLockPixels s ct).1 ≠ NULL) → 0 < w.ref.fLockCount →
        w.ref.fPixels ≠ NULL) := by
    rw [hfresh]
    exact ⟨fun _ => rfl, fun _ hlt => absurd (show (0 : Int) < 0 from hlt) (by decide)⟩
  obtain ⟨w1, hrun, hP1, hge⟩ := run_paired dbg k _ (step_keeps_pixels_inv dbg k)
    (ops.take n) 0 w h0 (pairedFrom_take n ops 0 hp) hP
  have hfwd : w1.ref.fPixels ≠ NULL → 0 < w1.ref.fLockCount := by
    intro hne
    by_contra hle
    exact hne (hP1.1 (by omega))
  exact ⟨w1, hrun, hfwd, fun hk => ⟨hfwd, hP1.2 hk⟩⟩

/-- The amended C1 result at a concrete run: two nested locks of a handle backed by
`mallocPixelRef`, observed after the first three of four calls. -/
theorem fPixels_nonnull_only_while_locked_witness :
    (World.fresh none (0 : Nat)).ref = SkPixelRef.create none ∧
      wellPaired [Op.lockPixels, Op.lockPixels, Op.unlockPixels, Op.unlockPixels] = true ∧
      ∃ w1, run true mallocPixelRef (World.fresh none (0 : Nat))
          ([Op.lockPixels, Op.lockPixels, Op.unlockPixels, Op.unlockPixels].take 3) =
            Except.ok w1 ∧
        (w1.ref.fPixels ≠ NULL → 0 < w1.ref.fLockCount) ∧
        ((∀ s ct, (mallocPixelRef.onLockPixels s ct).1 ≠ NULL) →
          (w1.ref.fPixels ≠ NULL ↔ 0 < w1.ref.fLockCount)) :=
  ⟨rfl, by decide,
   fPixels_nonnull_only_while_locked true mallocPixelRef (World.fresh none (0 : Nat)) none
     [Op.lockPixels, Op.lockPixels, Op.unlockPixels, Op.unlockPixels] 3 rfl (by decide)⟩

/-- C1 as stated fails: when `onLockPixels` returns `NULL` (a subtype that fails to
materialise), one `lockPixels` on a fresh handle leaves `fLockCount = 1` with a null
`fPixels`, in either build. -/
theorem fPixels_iff_locked_counterexample :
    wellPaired [Op.lockPixels] = true ∧
      (run true failingPixelRef (World.fresh none ()) [Op.lockPixels]).toOption.map
          (fun w => (w.ref.fPixels, w.ref.fLockCount,
            decide (w.ref.fPixels ≠ NULL ↔ 0 < w.ref.fLockCount))) =
        some (NULL, 1, false) ∧
      (run false failingPixelRef (World.fresh none ()) [Op.lockPixels]).toOption.map
          (fun w => (w.ref.fPixels, w.ref.fLockCount,
            decide (w.ref.fPixels ≠ NULL ↔ 0 < w.ref.fLockCount))) =
        some (NULL, 1, false) := by
  decide

/-- Only a `lockPixels` that takes the count from 0 to 1 adds an `onLockPixels`
invocation to the record. -/
theorem step_materializeCalls (dbg : Bool) (k : Hooks σ) (w w1 : World σ) (op : Op)
    (hs : step dbg k w op = Except.ok w1) :
    materializeCalls w1.hookCalls =
      materializeCalls w.hookCalls +
        (if w.ref.fLockCount = 0 ∧ w1.ref.fLockCount = 1 then 1 else 0) := by
  by_cases hl : op = Op.lockPixels
  · subst hl
    simp only [step, Except.ok.injEq] at hs
    subst hs
    by_cases hz : w.ref.fLockCount = 0
    · rw [lockPixels_of_zero k w hz, if_pos ⟨hz, rfl⟩]
      simp [materializeCalls]
    · rw [lockPixels_of_ne_zero k w hz, if_neg (fun h => hz h.1)]
      rfl
  · by_cases hul : op = Op.unlockPixels
    · subst hul
      simp only [step] at hs
      rcases unlockPixels_ok_cases dbg k w w1 hs with ⟨h1, e⟩ | ⟨_, e⟩
      · subst e
        rw [if_neg (fun h => by rw [h1] at h; exact absurd h.1 (by decide))]
        simp [materializeCalls]
      · subst e
        have hne : ¬ (w.ref.fLockCount = 0 ∧ w.ref.fLockCount - 1 = 1) := by omega
        rw [if_neg hne]
        rfl
    · obtain ⟨_, _, hc, hh⟩ := step_frame dbg k w w1 op hl hul hs
      rw [hh, hc, if_neg (by omega)]
      rfl

theorem lockCountTrace_eq_cons (dbg : Bool) (k : Hooks σ) (w : World σ) (ops : List Op) :
    ∃ tail, lockCountTrace dbg k w ops = w.ref.fLockCount :: tail := by
  cases ops with
  | nil => exact ⟨[], rfl⟩
  | cons op rest => exact ⟨_, rfl⟩

/-- Along every run that returns, the `onLockPixels` invocations added to the record
are as many as the 0-to-1 steps of the lock count. -/
theorem run_materializeCalls (dbg : Bool) (k : Hooks σ) (ops : List Op) :
    ∀ (w w1 : World σ), run dbg k w ops = Except.ok w1 →
      materializeCalls w1.hookCalls =
        materializeCalls w.hookCalls + transitions01 (lockCountTrace dbg k w ops) := by
  induction ops with
  | nil => intro w w1 h; cases h; rfl
  | cons op rest ih =>
      intro w w1 h
      obtain ⟨w0, hs, hr⟩ := run_cons_inv dbg k w w1 op rest h
      have htr : lockCountTrace dbg k w (op :: rest) =
          w.ref.fLockCount :: lockCountTrace dbg k w0 rest := by
        simp only [lockCountTrace, hs]
      obtain ⟨tail, ht⟩ := lockCountTrace_eq_cons dbg k w0 rest
      rw [htr, ih w0 w1 hr, step_materializeCalls dbg k w w0 op hs, ht]
      simp only [transitions01]
      omega

/-- C2: for every well-paired sequence of calls on a fresh handle (in either build, for
every subtype) the run returns and the number of `onLockPixels` invocations it adds
equals the number of steps that take `fLockCount` from 0 to 1; a `lockPixels` made
at `fLockCount = 0` invokes the hook exactly once and makes the count 1; a
`lockPixels` made while `fLockCount >= 1` only increments `fLockCount`: it invokes
no hook and leaves `fPixels`, `fColorTable` and everything else unchanged. -/
theorem onLockPixels_once_per_transition (dbg : Bool) (k : Hooks σ) (w : World σ)
    (mutex : Option Nat) (ops : List Op)
    (hfresh : w.ref = SkPixelRef.create mutex) (hp : wellPaired ops = true) :
    (∃ w1, run dbg k w ops = Except.ok w1 ∧
        materializeCalls w1.hookCalls =
          materializeCalls w.hookCalls + transitions01 (lockCountTrace dbg k w ops)) ∧
      (∀ x : World σ, x.ref.fLockCount = 0 →
        (lockPixels k x).ref.fLockCount = 1 ∧
          (lockPixels k x).hookCalls = x.hookCalls ++ [HookCall.onLockPixels]) ∧
      (∀ x : World σ, 1 ≤ x.ref.fLockCount →
        lockPixels k x = { x with ref := { x.ref with fLockCount := x.ref.fLockCount + 1 } }) := by
  have h0 : w.ref.fLockCount = ((0 : Nat) : Int) := by rw [hfresh]; rfl
  obtain ⟨w1, hrun, _, _⟩ := run_paired dbg k (fun _ => True) (fun _ _ _ _ _ _ _ => trivial)
    ops 0 w h0 hp trivial
  refine ⟨⟨w1, hrun, run_materializeCalls dbg k ops w w1 hrun⟩, ?_, ?_⟩
  · intro x hx
    rw [lockPixels_of_zero k x hx]
    exact ⟨rfl, rfl⟩
  · intro x hx
    exact lockPixels_of_ne_zero k x (by omega)

/-- The C2 result at a concrete run: lock, nested lock, two unlocks, lock again; the
count goes 0, 1, 2, 1, 0, 1 and `onLockPixels` is invoked twice. -/
theorem onLockPixels_once_per_transition_witness :
    (World.fresh none (0 : Nat)).ref = SkPixelRef.create none ∧
      wellPaired [Op.lockPixels, Op.lockPixels, Op.unlockPixels, Op.unlockPixels,
        Op.lockPixels] = true ∧
      lockCountTrace true mallocPixelRef (World.fresh none (0 : Nat))
        [Op.lockPixels, Op.lockPixels, Op.unlockPixels, Op.unlockPixels, Op.lockPixels] =
          [0, 1, 2, 1, 0, 1] ∧
      (run true mallocPixelRef (World.fresh none (0 : Nat))
        [Op.lockPixels, Op.lockPixels, Op.unlockPixels, Op.unlockPixels,
          Op.lockPixels]).toOption.map (fun w1 => materializeCalls w1.hookCalls) = some 2 ∧
      (∃ w1, run true mallocPixelRef (World.fresh none (0 : Nat))
          [Op.lockPixels, Op.lockPixels, Op.unlockPixels, Op.unlockPixels, Op.lockPixels] =
            Except.ok w1 ∧
        materializeCalls w1.hookCalls =
          materializeCalls (World.fresh none (0 : Nat)).hookCalls +
            transitions01 (lockCountTrace true mallocPixelRef (World.fresh none (0 : Nat))
              [Op.lockPixels, Op.lockPixels, Op.unlockPixels, Op.unlockPixels,
                Op.lockPixels])) :=
  ⟨rfl, by decide, by decide, by decide,
   (onLockPixels_once_per_transition true mallocPixelRef (World.fresh none (0 : Nat)) none
     [Op.lockPixels, Op.lockPixels, Op.unlockPixels, Op.unlockPixels, Op.lockPixels]
     rfl (by decide)).1⟩

/-! ## Generation identity across `notifyPixelsChanged` -/

theorem step_idsDrawn_le (dbg : Bool) (k : Hooks σ) (w w1 : World σ) (op : Op)
    (hs : step dbg k w op = Except.ok w1) : w.idsDrawn ≤ w1.idsDrawn := by
  cases op with
  | lockPixels =>
      simp only [step, Except.ok.injEq] at hs
      subst hs
      by_cases h : w.ref.fLockCount = 0
      · rw [lockPixels_of_zero k w h]
      · rw [lockPixels_of_ne_zero k w h]
  | unlockPixels =>
      simp only [step] at hs
      rcases unlockPixels_ok_cases dbg k w w1 hs with ⟨_, e⟩ | ⟨_, e⟩ <;> (subst e; exact le_refl _)
  | getGenerationID =>
      simp only [step, Except.ok.injEq] at hs
      subst hs
      unfold getGenerationID
      by_cases h : 0 = w.ref.fGenerationID
      · simp only [if_pos h]; exact Nat.le_succ _
      · simp only [if_neg h]; exact le_refl _
  | notifyPixelsChanged =>
      simp only [step, Except.ok.injEq] at hs
      subst hs
      unfold notifyPixelsChanged
      by_cases h : (dbg && w.ref.fIsImmutable) = true
      · simp only [if_pos h]; exact le_refl _
      · simp only [if_neg h]; exact le_refl _
  | lockPixelsAreWritable => simp only [step, Except.ok.injEq] at hs; subst hs; exact le_refl _
  | setImmutable => simp only [step, Except.ok.injEq] at hs; subst hs; exact le_refl _
  | readPixels dst subset => simp only [step, Except.ok.injEq] at hs; subst hs; exact le_refl _
  | flatten => simp only [step, Except.ok.injEq] at hs; subst hs; exact le_refl _
  | otherDraw => simp only [step, Except.ok.injEq] at hs; subst hs; exact Nat.le_succ _

theorem run_idsDrawn_le (dbg : Bool) (k : Hooks σ) (ops : List Op) :
    ∀ (w w1 : World σ), run dbg k w ops = Except.ok w1 → w.idsDrawn ≤ w1.idsDrawn := by
  induction ops with
  | nil => intro w w1 h; cases h; exact le_refl _
  | cons op rest ih =>
      intro w w1 h
      obtain ⟨w0, hs, hr⟩ := run_cons_inv dbg k w w1 op rest h
      exact le_trans (step_idsDrawn_le dbg k w w0 op hs) (ih w0 w1 hr)

/-- A draw made before the wrap returns the number of IDs drawn so far plus one. -/
theorem getGenerationID_draw (w : World σ) (h0 : w.ref.fGenerationID = 0)
    (hlt : w.gPixelRefGenerationID + 1 < WORD) :
    getGenerationID w =
      (w.gPixelRefGenerationID + 1,
       { w with
         ref := { w.ref with fGenerationID := w.gPixelRefGenerationID + 1 }
         gPixelRefGenerationID := w.gPixelRefGenerationID + 1
         idsDrawn := w.idsDrawn + 1 }) := by
  unfold getGenerationID
  rw [if_pos h0.symm]
  simp only [SkNextPixelRefGenerationID_succ _ hlt]

theorem notifyPixelsChanged_fields (dbg : Bool) (w : World σ) :
    (notifyPixelsChanged dbg w).ref = { w.ref with fGenerationID := 0 } ∧
      (notifyPixelsChanged dbg w).gPixelRefGenerationID = w.gPixelRefGenerationID ∧
      (notifyPixelsChanged dbg w).idsDrawn = w.idsDrawn := by
  unfold notifyPixelsChanged
  by_cases h : (dbg && w.ref.fIsImmutable) = true
  · simp only [if_pos h, and_self]
  · simp only [if_neg h, and_self]

theorem step_keeps_CounterInv (dbg : Bool) (k : Hooks σ) (v : Nat) (w w1 : World σ) (op : Op)
    (hK : CounterInv v w) (hs : step dbg k w op = Except.ok w1) : CounterInv v w1 := by
  have hmono := step_idsDrawn_le dbg k w w1 op hs
  intro hlt
  obtain ⟨hc, hg, hv, hn⟩ := hK (by omega)
  cases op with
  | lockPixels =>
      simp only [step, Except.ok.injEq] at hs
      subst hs
      by_cases h : w.ref.fLockCount = 0
      · rw [lockPixels_of_zero k w h]; exact ⟨hc, hg, hv, hn⟩
      · rw [lockPixels_of_ne_zero k w h]; exact ⟨hc, hg, hv, hn⟩
  | unlockPixels =>
      simp only [step] at hs
      rcases unlockPixels_ok_cases dbg k w w1 hs with ⟨_, e⟩ | ⟨_, e⟩ <;>
        (subst e; exact ⟨hc, hg, hv, hn⟩)
  | getGenerationID =>
      simp only [step, Except.ok.injEq] at hs
      subst hs
      by_cases h : w.ref.fGenerationID = 0
      · have hw : w.gPixelRefGenerationID + 1 < WORD := by
          rw [getGenerationID_draw w h (by
            by_contra hge
            unfold getGenerationID at hlt
            rw [if_pos h.symm] at hlt
            simp only at hlt
            omega)] at hlt
          simp only at hlt
          omega
        rw [getGenerationID_draw w h hw]
        simp only
        refine ⟨by omega, le_refl _, by omega, Or.inr (by omega)⟩
      · rw [getGenerationID_cached w h]; exact ⟨hc, hg, hv, hn⟩
  | notifyPixelsChanged =>
      simp only [step, Except.ok.injEq] at hs
      subst hs
      obtain ⟨e1, e2, e3⟩ := notifyPixelsChanged_fields dbg w
      rw [e1, e2, e3]
      exact ⟨hc, Nat.zero_le _, hv, Or.inl rfl⟩
  | lockPixelsAreWritable =>
      simp only [step, Except.ok.injEq] at hs; subst hs; exact ⟨hc, hg, hv, hn⟩
  | setImmutable =>
      simp only [step, Except.ok.injEq] at hs; subst hs; exact ⟨hc, hg, hv, hn⟩
  | readPixels dst subset =>
      simp only [step, Except.ok.injEq] at hs; subst hs; exact ⟨hc, hg, hv, hn⟩
  | flatten =>
      simp only [step, Except.ok.injEq] at hs; subst hs; exact ⟨hc, hg, hv, hn⟩
  | otherDraw =>
      simp only [step, Except.ok.injEq] at hs
      subst hs
      simp only at hlt ⊢
      have hw : w.gPixelRefGenerationID + 1 < WORD := by omega
      rw [SkNextPixelRefGenerationID_succ _ hw]
      simp only
      exact ⟨by omega, by omega, by omega, hn⟩

theorem run_keeps_CounterInv (dbg : Bool) (k : Hooks σ) (v : Nat) (ops : List Op)
    (w w1 : World σ) (hK : CounterInv v w) (hrun : run dbg k w ops = Except.ok w1) :
    CounterInv v w1 :=
  run_preserves dbg k (CounterInv v) ops
    (fun a b op _ hP hs => step_keeps_CounterInv dbg k v a b op hP hs) w w1 hK hrun

/-- C5 (amended): start from process start with a fresh handle and make any calls
(`pre`); let `getGenerationID` return `v`; after any further calls (`mid1`), a
`notifyPixelsChanged`, and any further calls (`mid2`, e.g. draws for other handles),
the next `getGenerationID` returns a value different from `v`, provided fewer than
`2 ^ 32 - 1` generation IDs have been drawn process-wide before that call. -/
theorem getGenerationID_differs_after_notify (dbg : Bool) (k : Hooks σ) (mutex : Option Nat)
    (s : σ) (pre mid1 mid2 : List Op) (w1 w3 w5 : World σ)
    (hpre : run dbg k (World.fresh mutex s) pre = Except.ok w1)
    (hmid1 : run dbg k (getGenerationID w1).2 mid1 = Except.ok w3)
    (hmid2 : run dbg k (notifyPixelsChanged dbg w3) mid2 = Except.ok w5)
    (hbound : w5.idsDrawn < WORD - 1) :
    (getGenerationID w5).1 ≠ (getGenerationID w1).1 := by
  have hfresh : CounterInv 0 (World.fresh mutex s) := fun _ =>
    ⟨rfl, le_refl _, le_refl _, Or.inl rfl⟩
  have hK1 : CounterInv 0 w1 := run_keeps_CounterInv dbg k 0 pre _ w1 hfresh hpre
  have hK2 : CounterInv 0 (getGenerationID w1).2 :=
    step_keeps_CounterInv dbg k 0 w1 _ Op.getGenerationID hK1 rfl
  have hK3 : CounterInv 0 w3 := run_keeps_CounterInv dbg k 0 mid1 _ w3 hK2 hmid1
  have hK4 : CounterInv 0 (notifyPixelsChanged dbg w3) :=
    step_keeps_CounterInv dbg k 0 w3 _ Op.notifyPixelsChanged hK3 rfl
  obtain ⟨e1, e2, e3⟩ := notifyPixelsChanged_fields dbg w3
  have hm1 := run_idsDrawn_le dbg k mid1 _ w3 hmid1
  have hm2 := run_idsDrawn_le dbg k mid2 _ w5 hmid2
  rw [e3] at hm2
  -- the value returned first is one of the IDs drawn before the notification
  have hv : (getGenerationID w1).1 ≤ (getGenerationID w1).2.idsDrawn := by
    obtain ⟨hc, hg, _, _⟩ := hK2 (by omega)
    rw [getGenerationID_fst]
    omega
  have hK4v : CounterInv (getGenerationID w1).1 (notifyPixelsChanged dbg w3) := by
    intro hlt
    obtain ⟨hc, hg, _, _⟩ := hK4 hlt
    refine ⟨hc, hg, ?_, Or.inl ?_⟩
    · rw [e3]; omega
    · rw [e1]
  obtain ⟨hc5, hg5, hv5, hn5⟩ :=
    run_keeps_CounterInv dbg k _ mid2 _ w5 hK4v hmid2 hbound
  by_cases h0 : w5.ref.fGenerationID = 0
  · rw [getGenerationID_draw w5 h0 (by omega)]
    simp only
    omega
  · rw [getGenerationID_cached w5 h0]
    simp only
    rcases hn5 with h | h
    · exact absurd h h0
    · omega

/-- The amended C5 result at a concrete run: another handle draws an ID, the handle is
queried (2), locked, notified of a change, another handle draws again, and the handle
is queried again (4). -/
theorem getGenerationID_differs_after_notify_witness :
    run true mallocPixelRef (World.fresh none (0 : Nat)) [Op.otherDraw] =
        Except.ok { World.fresh none (0 : Nat) with gPixelRefGenerationID := 1, idsDrawn := 1 } ∧
      (getGenerationID
          ({ World.fresh none (0 : Nat) with gPixelRefGenerationID := 1, idsDrawn := 1 } :
            World Nat)).1 = 2 ∧
      (getGenerationID
          ({ ref := { SkPixelRef.create none with
                fPixels := 4096, fLockCount := 1, fGenerationID := 0 }
             sub := 1
             gPixelRefGenerationID := 3
             out := { items := [] }
             console := []
             hookCalls := [HookCall.onLockPixels]
             idsDrawn := 3 } : World Nat)).1 = 4 ∧
      (getGenerationID
          ({ ref := { SkPixelRef.create none with
                fPixels := 4096, fLockCount := 1, fGenerationID := 0 }
             sub := 1
             gPixelRefGenerationID := 3
             out := { items := [] }
             console := []
             hookCalls := [HookCall.onLockPixels]
             idsDrawn := 3 } : World Nat)).1 ≠
        (getGenerationID
          ({ World.fresh none (0 : Nat) with gPixelRefGenerationID := 1, idsDrawn := 1 } :
            World Nat)).1 :=
  have hpre : run true mallocPixelRef (World.fresh none (0 : Nat)) [Op.otherDraw] =
      Except.ok { World.fresh none (0 : Nat) with gPixelRefGenerationID := 1, idsDrawn := 1 } := by
    simp [run, step, World.fresh, SkNextPixelRefGenerationID_eq, WORD]
  have hmid1 : run true mallocPixelRef
      (getGenerationID
        ({ World.fresh none (0 : Nat) with gPixelRefGenerationID := 1, idsDrawn := 1 } :
          World Nat)).2 [Op.lockPixels] =
      Except.ok
        { ref := { SkPixelRef.create none with
            fPixels := 4096, fLockCount := 1, fGenerationID := 2 }
          sub := 1
          gPixelRefGenerationID := 2
          out := { items := [] }
          console := []
          hookCalls := [HookCall.onLockPixels]
          idsDrawn := 2 } := by
    simp [run, step, getGenerationID, World.fresh, SkPixelRef.create,
      SkNextPixelRefGenerationID_eq, WORD, lockPixels, mallocPixelRef,
      Hooks.withBaseDefaults, NULL]
  have hmid2 : run true mallocPixelRef
      (notifyPixelsChanged true
        { ref := { SkPixelRef.create none with
            fPixels := 4096, fLockCount := 1, fGenerationID := 2 }
          sub := 1
          gPixelRefGenerationID := 2
          out := { items := [] }
          console := []
          hookCalls := [HookCall.onLockPixels]
          idsDrawn := 2 }) [Op.otherDraw] =
      Except.ok
        { ref := { SkPixelRef.create none with
            fPixels := 4096, fLockCount := 1, fGenerationID := 0 }
          sub := 1
          gPixelRefGenerationID := 3
          out := { items := [] }
          console := []
          hookCalls := [HookCall.onLockPixels]
          idsDrawn := 3 } := by
    simp [run, step, notifyPixelsChanged, SkPixelRef.create,
      SkNextPixelRefGenerationID_eq, WORD, NULL]
  ⟨hpre,
   by simp [getGenerationID, World.fresh, SkPixelRef.create, SkNextPixelRefGenerationID_eq, WORD],
   by simp [getGenerationID, SkPixelRef.create, SkNextPixelRefGenerationID_eq, WORD],
   getGenerationID_differs_after_notify true mallocPixelRef none (0 : Nat)
     [Op.otherDraw] [Op.lockPixels] [Op.otherDraw] _ _ _ hpre hmid1 hmid2
     (by simp [WORD])⟩

/-- The static counter after `n` draws for other handles, started from a value that a
draw can leave (1 to `2 ^ 32 - 1`): the counter cycles through those values. -/
theorem run_otherDraws (dbg : Bool) (k : Hooks σ) (n : Nat) :
    ∀ w : World σ, 1 ≤ w.gPixelRefGenerationID → w.gPixelRefGenerationID < WORD →
      run dbg k w (List.replicate n Op.otherDraw) =
        Except.ok { w with
          gPixelRefGenerationID := (w.gPixelRefGenerationID - 1 + n) % (WORD - 1) + 1
          idsDrawn := w.idsDrawn + n } := by
  induction n with
  | zero =>
      intro w h1 h2
      have e : (w.gPixelRefGenerationID - 1 + 0) % (WORD - 1) + 1 = w.gPixelRefGenerationID := by
        simp only [WORD] at h2 ⊢
        omega
      rw [e]
      rfl
  | succ n ih =>
      intro w h1 h2
      rw [List.replicate_succ, run_cons_ok dbg k w _ Op.otherDraw _ rfl]
      have hnext : (SkNextPixelRefGenerationID w.gPixelRefGenerationID).counter =
          w.gPixelRefGenerationID % (WORD - 1) + 1 := by
        rw [SkNextPixelRefGenerationID_eq]
        simp only [WORD] at h2 ⊢
        by_cases h : (w.gPixelRefGenerationID + 1) % 2 ^ 32 = 0
        · rw [if_pos h]; simp only; omega
        · rw [if_neg h]; simp only; omega
      rw [ih _ (by simp only; rw [hnext]; omega) (by
        simp only; rw [hnext]; simp only [WORD] at h2 ⊢; omega)]
      simp only [hnext]
      have e : (w.gPixelRefGenerationID % (WORD - 1) + 1 - 1 + n) % (WORD - 1) + 1 =
          (w.gPixelRefGenerationID - 1 + (n + 1)) % (WORD - 1) + 1 := by
        simp only [WORD] at h2 ⊢
        omega
      rw [e]
      have e2 : w.idsDrawn + 1 + n = w.idsDrawn + (n + 1) := by omega
      rw [e2]

/-- C5 as stated fails once the 32-bit counter has wrapped.  From process start the
handle draws ID 1 and other handles draw `2 ^ 32 - 2` IDs; in the state reached,
`getGenerationID` returns 1, `notifyPixelsChanged` is called, and the next
`getGenerationID` returns 1 again. -/
theorem getGenerationID_repeats_after_wrap_counterexample :
    (run false mallocPixelRef (World.fresh none (0 : Nat))
        (Op.getGenerationID :: List.replicate (2 ^ 32 - 2) Op.otherDraw)).toOption.map
      (fun w => ((getGenerationID w).1,
        (getGenerationID (notifyPixelsChanged false (getGenerationID w).2)).1)) =
      some (1, 1) := by
  have hfirst : step false mallocPixelRef (World.fresh none (0 : Nat)) Op.getGenerationID =
      Except.ok
        { World.fresh none (0 : Nat) with
          ref := { SkPixelRef.create none with fGenerationID := 1 }
          gPixelRefGenerationID := 1
          idsDrawn := 1 } := by
    simp [step, getGenerationID, World.fresh, SkPixelRef.create,
      SkNextPixelRefGenerationID_eq, WORD]
  rw [run_cons_ok false mallocPixelRef _ _ Op.getGenerationID _ hfirst,
    run_otherDraws false mallocPixelRef (2 ^ 32 - 2) _ (le_refl _) (by simp [WORD])]
  simp [Except.toOption, getGenerationID, notifyPixelsChanged, World.fresh,
    SkPixelRef.create, SkNextPixelRefGenerationID_eq, WORD]

/-! ## The factory registry -/

theorem strcmpChars_eq_zero_iff : ∀ l1 l2 : List Char, strcmpChars l1 l2 = 0 ↔ l1 = l2 := by
  intro l1
  induction l1 with
  | nil =>
      intro l2
      cases l2 with
      | nil => simp [strcmpChars]
      | cons b bs => simp [strcmpChars]
  | cons a as ih =>
      intro l2
      cases l2 with
      | nil => simp [strcmpChars]
      | cons b bs =>
          by_cases hab : a = b
          · simp [strcmpChars, hab, ih bs]
          · by_cases hlt : a.toNat < b.toNat <;> simp [strcmpChars, hab, hlt]

/-- The function `strcmp` returns 0 exactly on equal strings. -/
theorem strcmp_eq_zero_iff (s1 s2 : String) : strcmp s1 s2 = 0 ↔ s1 = s2 := by
  unfold strcmp
  rw [strcmpChars_eq_zero_iff]
  exact ⟨fun h => String.ext h, fun h => h ▸ rfl⟩

theorem Registry.initial_holds : Registry.Holds [] Registry.initial :=
  ⟨Or.inr ⟨rfl, rfl⟩, rfl, List.length_replicate _ _, fun i c h => by simp at h⟩

/-- A `Register` call within its contract and within capacity returns, and appends its
pair to what the registry holds. -/
theorem Register_holds (dbg : Bool) (calls : List RegisterCall) (r : Registry)
    (c : RegisterCall) (hH : Registry.Holds calls r) (hlen : calls.length < MAX_PAIR_COUNT)
    (hname : c.name ≠ none) (hfact : c.factory ≠ NULL) :
    ∃ r1, Register dbg r c.name c.factory = Except.ok r1 ∧
      Registry.Holds (calls ++ [c]) r1 := by
  obtain ⟨honce, hcount, hsize, hget⟩ := hH
  have hcnt : (if (!r.gOnce) = true then 0 else r.gCount) = calls.length := by
    rcases honce with h | ⟨h1, h2⟩
    · rw [h]; simpa using hcount
    · rw [h1]
      by_cases hb : (!r.gOnce) = true
      · rw [if_pos hb]; rfl
      · rw [if_neg hb, h2]; rfl
  have hn : c.name.isSome = true := by
    cases hc : c.name with
    | none => exact absurd hc hname
    | some s => rfl
  have hf : (c.factory != NULL) = true := by simpa using hfact
  have ha1 : (!SkASSERT dbg c.name.isSome) = false := by rw [hn]; cases dbg <;> rfl
  have ha2 : (!SkASSERT dbg (c.factory != NULL)) = false := by rw [hf]; cases dbg <;> rfl
  have ha3 : (!SkASSERT dbg (decide (calls.length < MAX_PAIR_COUNT))) = false := by
    rw [decide_eq_true hlen]; cases dbg <;> rfl
  refine ⟨{ gOnce := true, gCount := calls.length + 1,
            gPairs := r.gPairs.set calls.length (Pair.mk c.name c.factory) }, ?_, ?_⟩
  · unfold Register
    have ha4 : (!SkASSERT dbg (decide True)) = false := by cases dbg <;> rfl
    simp only [ha1, ha2, hcnt, ha4, hlen, if_true, Bool.false_eq_true, if_false]
  · refine ⟨Or.inl rfl, by simp, by simpa using hsize, ?_⟩
    intro i c1 hi
    show (r.gPairs.set calls.length (Pair.mk c.name c.factory))[i]? = _
    rcases Nat.lt_trichotomy i calls.length with hlt | heq | hgt
    · rw [List.getElem?_append_left hlt] at hi
      rw [List.getElem?_set_ne (by omega)]
      exact hget i c1 hi
    · subst heq
      rw [List.getElem?_concat_length] at hi
      cases hi
      rw [List.getElem?_set_self (by rw [hsize]; exact hlen)]
    · rw [List.getElem?_eq_none (by simp; omega)] at hi
      cases hi

/-- A sequence of `Register` calls within the contract and within capacity returns, and
the registry then holds the pairs of all calls in call order. -/
theorem RegisterAll_holds (dbg : Bool) (more : List RegisterCall) :
    ∀ (calls : List RegisterCall) (r : Registry), Registry.Holds calls r →
      (calls ++ more).length ≤ MAX_PAIR_COUNT →
      (∀ c ∈ more, c.name ≠ none ∧ c.factory ≠ NULL) →
      ∃ r1, RegisterAll dbg r more = Except.ok r1 ∧ Registry.Holds (calls ++ more) r1 := by
  induction more with
  | nil => intro calls r hH _ _; exact ⟨r, rfl, by rwa [List.append_nil]⟩
  | cons c rest ih =>
      intro calls r hH hlen hvalid
      have hlt : calls.length < MAX_PAIR_COUNT := by
        simp only [List.length_append, List.length_cons] at hlen
        omega
      obtain ⟨hn, hf⟩ := hvalid c (List.mem_cons_self _ _)
      obtain ⟨r0, hr0, hH0⟩ := Register_holds dbg calls r c hH hlt hn hf
      obtain ⟨r1, hr1, hH1⟩ := ih (calls ++ [c]) r0 hH0
        (by simpa using hlen) (fun x hx => hvalid x (List.mem_cons_of_mem _ hx))
      refine ⟨r1, ?_, by simpa using hH1⟩
      simp only [RegisterAll, hr0]
      exact hr1

/-- What a registry holds fits in its table. -/
theorem Registry.Holds.length_le {calls : List RegisterCall} {r : Registry}
    (hH : Registry.Holds calls r) : calls.length ≤ MAX_PAIR_COUNT := by
  by_contra hgt
  have hlt : MAX_PAIR_COUNT < calls.length := by omega
  have h1 := hH.2.2.2 MAX_PAIR_COUNT calls[MAX_PAIR_COUNT] (List.getElem?_eq_getElem hlt)
  rw [List.getElem?_eq_none (by rw [hH.2.2.1])] at h1
  cases h1

/-- A `Register` call that returns found room in the table and, in a debug build, met
both argument assertions. -/
theorem Register_ok_inv (dbg : Bool) (r r1 : Registry) (name : Option String) (factory : Nat)
    (h : Register dbg r name factory = Except.ok r1) :
    (if (!r.gOnce) = true then 0 else r.gCount) < MAX_PAIR_COUNT ∧
      (dbg = true → name ≠ none ∧ factory ≠ NULL) := by
  unfold Register at h
  by_cases h1 : (!SkASSERT dbg name.isSome) = true
  · rw [if_pos h1] at h; cases h
  · rw [if_neg h1] at h
    by_cases h2 : (!SkASSERT dbg (factory != NULL)) = true
    · rw [if_pos h2] at h; cases h
    · rw [if_neg h2] at h
      simp only at h
      by_cases h3 : (!SkASSERT dbg
          (decide ((if (!r.gOnce) = true then 0 else r.gCount) < MAX_PAIR_COUNT))) = true
      · rw [if_pos h3] at h; cases h
      · rw [if_neg h3] at h
        by_cases h4 : (if (!r.gOnce) = true then 0 else r.gCount) < MAX_PAIR_COUNT
        · refine ⟨h4, fun hd => ?_⟩
          subst hd
          constructor
          · intro e
            rw [e] at h1
            exact h1 rfl
          · intro e
            rw [e] at h2
            exact h2 rfl
        · rw [if_neg h4] at h; cases h

/-- A sequence of `Register` calls that returns stayed within capacity; its calls met the
argument assertions if the build checks them or the caller kept to the contract. -/
theorem RegisterAll_ok_valid (dbg : Bool) (more : List RegisterCall) :
    ∀ (calls : List RegisterCall) (r r1 : Registry), Registry.Holds calls r →
      RegisterAll dbg r more = Except.ok r1 →
      (dbg = true ∨ ∀ c ∈ more, c.name ≠ none ∧ c.factory ≠ NULL) →
      (∀ c ∈ more, c.name ≠ none ∧ c.factory ≠ NULL) ∧
        (calls ++ more).length ≤ MAX_PAIR_COUNT := by
  induction more with
  | nil =>
      intro calls r r1 hH _ _
      exact ⟨fun c hc => absurd hc (List.not_mem_nil c),
        (List.append_nil calls).symm ▸ hH.length_le⟩
  | cons c rest ih =>
      intro calls r r1 hH hrun hcontract
      simp only [RegisterAll] at hrun
      cases hreg : Register dbg r c.name c.factory with
      | error e => rw [hreg] at hrun; cases hrun
      | ok r0 =>
          rw [hreg] at hrun
          obtain ⟨hroom, hargs⟩ := Register_ok_inv dbg r r0 c.name c.factory hreg
          have hc : c.name ≠ none ∧ c.factory ≠ NULL := by
            rcases hcontract with hd | hv
            · exact hargs hd
            · exact hv c (List.mem_cons_self _ _)
          have hlt : calls.length < MAX_PAIR_COUNT := by
            obtain ⟨honce, hcount, _, _⟩ := hH
            rcases honce with h | ⟨_, h2⟩
            · rw [h] at hroom
              simp only [Bool.not_true, Bool.false_eq_true, if_false] at hroom
              omega
            · omega
          obtain ⟨r0a, hr0a, hH0⟩ := Register_holds dbg calls r c hH hlt hc.1 hc.2
          rw [hreg] at hr0a
          cases hr0a
          obtain ⟨hvrest, hlen⟩ := ih (calls ++ [c]) r0 r1 hH0 hrun
            (hcontract.imp id (fun hv x hx => hv x (List.mem_cons_of_mem _ hx)))
          refine ⟨fun x hx => ?_, by simpa using hlen⟩
          rcases List.mem_cons.mp hx with h | h
          · rw [h]; exact hc
          · exact hvrest x h

/-- The scan of `NameToFactory` over `n` slots returns the factory of the highest slot
below `n` whose name compares equal. -/
theorem nameScan_found (pairs : List Pair) (name : String) (i : Nat) (p : Pair)
    (hp : pairs[i]? = some p) (hpn : p.fName = some name) :
    ∀ n, i < n →
      (∀ j, i < j → j < n → ∃ q s, pairs[j]? = some q ∧ q.fName = some s ∧ s ≠ name) →
      nameScan pairs name n = Except.ok p.fFactory := by
  intro n
  induction n with
  | zero => intro h; omega
  | succ n ih =>
      intro hlt hrest
      by_cases hin : i = n
      · subst hin
        simp only [nameScan, hp, hpn]
        rw [if_pos ((strcmp_eq_zero_iff name name).mpr rfl)]
      · obtain ⟨q, s, hq, hqs, hne⟩ := hrest n (by omega) (by omega)
        simp only [nameScan, hq, hqs]
        rw [if_neg (fun h => hne ((strcmp_eq_zero_iff s name).mp h))]
        exact ih (by omega) (fun j h1 h2 => hrest j h1 (by omega))

/-- The scan of `NameToFactory` over `n` slots none of which has the name returns `NULL`. -/
theorem nameScan_missing (pairs : List Pair) (name : String) :
    ∀ n, (∀ j, j < n → ∃ q s, pairs[j]? = some q ∧ q.fName = some s ∧ s ≠ name) →
      nameScan pairs name n = Except.ok NULL := by
  intro n
  induction n with
  | zero => intro _; rfl
  | succ n ih =>
      intro hrest
      obtain ⟨q, s, hq, hqs, hne⟩ := hrest n (by omega)
      simp only [nameScan, hq, hqs]
      rw [if_neg (fun h => hne ((strcmp_eq_zero_iff s name).mp h))]
      exact ih (fun j h => hrest j (by omega))

/-- The scan of `FactoryToName` over `n` slots returns the name of the highest slot
below `n` that holds the factory. -/
theorem factoryScan_found (pairs : List Pair) (fact : Nat) (i : Nat) (p : Pair)
    (hp : pairs[i]? = some p) (hpf : p.fFactory = fact) :
    ∀ n, i < n →
      (∀ j, i < j → j < n → ∃ q, pairs[j]? = some q ∧ q.fFactory ≠ fact) →
      factoryScan pairs fact n = Except.ok p.fName := by
  intro n
  induction n with
  | zero => intro h; omega
  | succ n ih =>
      intro hlt hrest
      by_cases hin : i = n
      · subst hin
        simp only [factoryScan, hp]
        rw [if_pos hpf]
      · obtain ⟨q, hq, hne⟩ := hrest n (by omega) (by omega)
        simp only [factoryScan, hq]
        rw [if_neg hne]
        exact ih (by omega) (fun j h1 h2 => hrest j h1 (by omega))

/-- The scan of `FactoryToName` over `n` slots none of which holds the factory returns
the null pointer. -/
theorem factoryScan_missing (pairs : List Pair) (fact : Nat) :
    ∀ n, (∀ j, j < n → ∃ q, pairs[j]? = some q ∧ q.fFactory ≠ fact) →
      factoryScan pairs fact n = Except.ok none := by
  intro n
  induction n with
  | zero => intro _; rfl
  | succ n ih =>
      intro hrest
      obtain ⟨q, hq, hne⟩ := hrest n (by omega)
      simp only [factoryScan, hq]
      rw [if_neg hne]
      exact ih (fun j h => hrest j (by omega))

/-- Among the elements of a list that satisfy a property, one comes last. -/
theorem exists_last_index {α : Type} (P : α → Prop) :
    ∀ l : List α, (∃ c ∈ l, P c) →
      ∃ (i : Nat) (c : α), l[i]? = some c ∧ P c ∧
        ∀ (j : Nat) (c1 : α), i < j → l[j]? = some c1 → ¬ P c1 := by
  intro l
  induction l with
  | nil => intro h; obtain ⟨c, hc, _⟩ := h; cases hc
  | cons a rest ih =>
      intro h
      by_cases hr : ∃ c ∈ rest, P c
      · obtain ⟨i, c, hi, hPc, hlast⟩ := ih hr
        refine ⟨i + 1, c, by simpa using hi, hPc, ?_⟩
        intro j c1 hj hc1
        cases j with
        | zero => omega
        | succ j => exact hlast j c1 (by omega) (by simpa using hc1)
      · obtain ⟨c, hc, hPc⟩ := h
        have hca : c = a := by
          rcases List.mem_cons.mp hc with h1 | h1
          · exact h1
          · exact absurd ⟨c, h1, hPc⟩ hr
        subst hca
        refine ⟨0, c, by simp, hPc, ?_⟩
        intro j c1 hj hc1
        cases j with
        | zero => omega
        | succ j =>
            intro hP1
            exact hr ⟨c1, List.getElem?_mem (by simpa using hc1), hP1⟩

theorem Registry.Holds.slot {calls : List RegisterCall} {r : Registry}
    (hH : Registry.Holds calls r) (j : Nat) (hj : j < calls.length) :
    ∃ c, calls[j]? = some c ∧ c ∈ calls ∧ r.gPairs[j]? = some (Pair.mk c.name c.factory) :=
  ⟨calls[j], List.getElem?_eq_getElem hj, List.getElem_mem hj,
    hH.2.2.2 j calls[j] (List.getElem?_eq_getElem hj)⟩

/-- In a registry built within the contract, `NameToFactory` returns the factory of the
last call that registered the name, or `NULL` when no call did. -/
theorem NameToFactory_cases (calls : List RegisterCall) (r : Registry) (n : String)
    (hH : Registry.Holds calls r) (hvalid : ∀ c ∈ calls, c.name ≠ none ∧ c.factory ≠ NULL) :
    ((∀ c ∈ calls, c.name ≠ some n) ∧ NameToFactory r n = Except.ok NULL) ∨
      (∃ (i : Nat) (c : RegisterCall), calls[i]? = some c ∧ c.name = some n ∧
        (∀ (j : Nat) (c1 : RegisterCall), i < j → calls[j]? = some c1 → c1.name ≠ some n) ∧
        NameToFactory r n = Except.ok c.factory) := by
  have hslot : ∀ j, j < calls.length → (∀ c1, calls[j]? = some c1 → c1.name ≠ some n) →
      ∃ q s, r.gPairs[j]? = some q ∧ q.fName = some s ∧ s ≠ n := by
    intro j hj hne
    obtain ⟨c1, hc1, hmem, hq⟩ := hH.slot j hj
    cases hnm : c1.name with
    | none => exact absurd hnm (hvalid c1 hmem).1
    | some s =>
        refine ⟨_, s, hq, hnm, fun e => hne c1 hc1 ?_⟩
        rw [hnm, e]
  by_cases hreg : ∃ c ∈ calls, c.name = some n
  · right
    obtain ⟨i, c, hi, hcn, hlast⟩ := exists_last_index (fun c => c.name = some n) calls hreg
    have hil : i < calls.length := by
      by_contra hge
      rw [List.getElem?_eq_none (by omega)] at hi
      cases hi
    refine ⟨i, c, hi, hcn, hlast, ?_⟩
    unfold NameToFactory
    rw [hH.2.1]
    exact nameScan_found r.gPairs n i (Pair.mk c.name c.factory) (hH.2.2.2 i c hi) hcn
      calls.length hil (fun j h1 h2 => hslot j h2 (fun c1 hc1 => hlast j c1 h1 hc1))
  · left
    have hnone : ∀ c ∈ calls, c.name ≠ some n := fun c hc e => hreg ⟨c, hc, e⟩
    refine ⟨hnone, ?_⟩
    unfold NameToFactory
    rw [hH.2.1]
    exact nameScan_missing r.gPairs n calls.length
      (fun j hj => hslot j hj (fun c1 hc1 => hnone c1 (List.getElem?_mem hc1)))

/-- In a registry built within the contract, `FactoryToName` returns the name of the
last call that registered the factory, or the null pointer when no call did. -/
theorem FactoryToName_cases (calls : List RegisterCall) (r : Registry) (f : Nat)
    (hH : Registry.Holds calls r) :
    ((∀ c ∈ calls, c.factory ≠ f) ∧ FactoryToName r f = Except.ok none) ∨
      (∃ (i : Nat) (c : RegisterCall), calls[i]? = some c ∧ c.factory = f ∧
        (∀ (j : Nat) (c1 : RegisterCall), i < j → calls[j]? = some c1 → c1.factory ≠ f) ∧
        FactoryToName r f = Except.ok c.name) := by
  have hslot : ∀ j, j < calls.length → (∀ c1, calls[j]? = some c1 → c1.factory ≠ f) →
      ∃ q, r.gPairs[j]? = some q ∧ q.fFactory ≠ f := by
    intro j hj hne
    obtain ⟨c1, hc1, _, hq⟩ := hH.slot j hj
    exact ⟨_, hq, hne c1 hc1⟩
  by_cases hreg : ∃ c ∈ calls, c.factory = f
  · right
    obtain ⟨i, c, hi, hcf, hlast⟩ := exists_last_index (fun c => c.factory = f) calls hreg
    have hil : i < calls.length := by
      by_contra hge
      rw [List.getElem?_eq_none (by omega)] at hi
      cases hi
    refine ⟨i, c, hi, hcf, hlast, ?_⟩
    unfold FactoryToName
    rw [hH.2.1]
    exact factoryScan_found r.gPairs f i (Pair.mk c.name c.factory) (hH.2.2.2 i c hi) hcf
      calls.length hil (fun j h1 h2 => hslot j h2 (fun c1 hc1 => hlast j c1 h1 hc1))
  · left
    have hnone : ∀ c ∈ calls, c.factory ≠ f := fun c hc e => hreg ⟨c, hc, e⟩
    refine ⟨hnone, ?_⟩
    unfold FactoryToName
    rw [hH.2.1]
    exact factoryScan_missing r.gPairs f calls.length
      (fun j hj => hslot j hj (fun c1 hc1 => hnone c1 (List.getElem?_mem hc1)))

/-- C8: last-registered wins.  For every sequence of at most 16 `Register` calls with
non-null names and factories (in either build) and every name `n` registered at least
once, the calls return and `NameToFactory(n)` returns the factory of the most recently
registered entry whose name is string-equal to `n`: the entry of call `i`, no later
call having that name. -/
theorem NameToFactory_last_registered_wins (dbg : Bool) (calls : List RegisterCall)
    (n : String) (hlen : calls.length ≤ MAX_PAIR_COUNT)
    (hvalid : ∀ c ∈ calls, c.name ≠ none ∧ c.factory ≠ NULL)
    (hreg : ∃ c ∈ calls, c.name = some n) :
    ∃ (r : Registry) (i : Nat) (c : RegisterCall),
      RegisterAll dbg Registry.initial calls = Except.ok r ∧
      calls[i]? = some c ∧ c.name = some n ∧
      (∀ (j : Nat) (c1 : RegisterCall), i < j → calls[j]? = some c1 → c1.name ≠ some n) ∧
      NameToFactory r n = Except.ok c.factory := by
  obtain ⟨r, hr, hH⟩ := RegisterAll_holds dbg calls [] Registry.initial
    Registry.initial_holds (by simpa using hlen) hvalid
  rw [List.nil_append] at hH
  rcases NameToFactory_cases calls r n hH hvalid with ⟨hnone, _⟩ | ⟨i, c, h1, h2, h3, h4⟩
  · obtain ⟨c, hc, hcn⟩ := hreg
    exact absurd hcn (hnone c hc)
  · exact ⟨r, i, c, hr, h1, h2, h3, h4⟩

/-- The C8 result on the spec's example: after A -> f1, B -> f2, A -> f3 the lookup of
"A" returns f3. -/
theorem NameToFactory_last_registered_wins_witness :
    sampleCalls.length ≤ MAX_PAIR_COUNT ∧
      (∀ c ∈ sampleCalls, c.name ≠ none ∧ c.factory ≠ NULL) ∧
      (∃ c ∈ sampleCalls, c.name = some "A") ∧
      (RegisterAll true Registry.initial sampleCalls).toOption.map
          (fun r => NameToFactory r "A") = some (Except.ok 3) ∧
      (∃ (r : Registry) (i : Nat) (c : RegisterCall),
        RegisterAll true Registry.initial sampleCalls = Except.ok r ∧
        sampleCalls[i]? = some c ∧ c.name = some "A" ∧
        (∀ (j : Nat) (c1 : RegisterCall), i < j → sampleCalls[j]? = some c1 →
          c1.name ≠ some "A") ∧
        NameToFactory r "A" = Except.ok c.factory) :=
  ⟨by decide, by decide, by decide, by decide,
   NameToFactory_last_registered_wins true sampleCalls "A" (by decide) (by decide)
     (by decide)⟩

/-- C9 (amended): lookup misses are reported by the null sentinel and only then, in
every registry state built within the contract of `Register`.  For the state `r` left by
any sequence of `Register` calls that returned in a debug build (where `Register` asserts
non-null name and factory), and in a release build by any such sequence whose names and
factories are non-null: both lookups return for every argument; `NameToFactory(n)` returns `NULL` if and only if no
registered entry has a name string-equal to `n`; `FactoryToName(f)` returns the null
pointer if and only if no registered entry has factory `f`; and both return null on the
empty registry. -/
theorem lookup_miss_iff_unregistered (dbg : Bool) (calls : List RegisterCall) (r : Registry)
    (hrun : RegisterAll dbg Registry.initial calls = Except.ok r)
    (hcontract : dbg = true ∨ ∀ c ∈ calls, c.name ≠ none ∧ c.factory ≠ NULL) :
    (∀ n : String, (∃ f, NameToFactory r n = Except.ok f) ∧
        (NameToFactory r n = Except.ok NULL ↔ ∀ c ∈ calls, c.name ≠ some n)) ∧
      (∀ f : Nat, (∃ nm, FactoryToName r f = Except.ok nm) ∧
        (FactoryToName r f = Except.ok none ↔ ∀ c ∈ calls, c.factory ≠ f)) ∧
      (∀ n : String, NameToFactory Registry.initial n = Except.ok NULL) ∧
      (∀ f : Nat, FactoryToName Registry.initial f = Except.ok none) := by
  obtain ⟨hvalid, hlen⟩ := RegisterAll_ok_valid dbg calls [] Registry.initial r
    Registry.initial_holds hrun hcontract
  obtain ⟨r1, hr1, hH⟩ := RegisterAll_holds dbg calls [] Registry.initial
    Registry.initial_holds hlen hvalid
  rw [hrun] at hr1
  cases hr1
  rw [List.nil_append] at hH
  refine ⟨?_, ?_, fun _ => rfl, fun _ => rfl⟩
  · intro n
    rcases NameToFactory_cases calls r n hH hvalid with ⟨hnone, hres⟩ | ⟨i, c, h1, h2, _, h4⟩
    · exact ⟨⟨_, hres⟩, ⟨fun _ => hnone, fun _ => hres⟩⟩
    · refine ⟨⟨_, h4⟩, ⟨fun hnull => ?_, fun hnone => ?_⟩⟩
      · rw [h4] at hnull
        exact absurd (Except.ok.inj hnull) (hvalid c (List.getElem?_mem h1)).2
      · exact absurd h2 (hnone c (List.getElem?_mem h1))
  · intro f
    rcases FactoryToName_cases calls r f hH with ⟨hnone, hres⟩ | ⟨i, c, h1, h2, _, h4⟩
    · exact ⟨⟨_, hres⟩, ⟨fun _ => hnone, fun _ => hres⟩⟩
    · refine ⟨⟨_, h4⟩, ⟨fun hnull => ?_, fun hnone => ?_⟩⟩
      · rw [h4] at hnull
        exact absurd (Except.ok.inj hnull) (hvalid c (List.getElem?_mem h1)).1
      · exact absurd h2 (hnone c (List.getElem?_mem h1))

/-- The amended C9 result on the spec's example, in a release build: after A -> f1, B -> f2,
A -> f3 the lookup of "Z" and of an unregistered factory return null, the lookups of
"B" and of f2 do not. -/
theorem lookup_miss_iff_unregistered_witness :
    RegisterAll false Registry.initial sampleCalls = Except.ok sampleRegistry ∧
      (∀ c ∈ sampleCalls, c.name ≠ none ∧ c.factory ≠ NULL) ∧
      (NameToFactory sampleRegistry "Z", FactoryToName sampleRegistry 7,
          NameToFactory sampleRegistry "B", FactoryToName sampleRegistry 2) =
        (Except.ok NULL, Except.ok none, Except.ok 2, Except.ok (some "B")) ∧
      ((∀ n : String, (∃ f, NameToFactory sampleRegistry n = Except.ok f) ∧
          (NameToFactory sampleRegistry n = Except.ok NULL ↔
            ∀ c ∈ sampleCalls, c.name ≠ some n)) ∧
        (∀ f : Nat, (∃ nm, FactoryToName sampleRegistry f = Except.ok nm) ∧
          (FactoryToName sampleRegistry f = Except.ok none ↔
            ∀ c ∈ sampleCalls, c.factory ≠ f)) ∧
        (∀ n : String, NameToFactory Registry.initial n = Except.ok NULL) ∧
        (∀ f : Nat, FactoryToName Registry.initial f = Except.ok none)) :=
  ⟨by decide, by decide, by decide,
   lookup_miss_iff_unregistered false sampleCalls sampleRegistry (by decide)
     (Or.inr (by decide))⟩

/-- C9 as stated fails in a release build, where the argument assertions of `Register`
are compiled out.  After `Register("A", NULL)` the call returned and the entry "A" is
registered, yet `NameToFactory("A")` returns `NULL`; after `Register(NULL, 1)` an entry
with factory 1 is registered, yet `FactoryToName(1)` returns the null pointer. -/
theorem lookup_null_for_registered_counterexample :
    (∃ c ∈ [({ name := some "A", factory := NULL } : RegisterCall)], c.name = some "A") ∧
      (RegisterAll false Registry.initial
          [{ name := some "A", factory := NULL }]).toOption.map
        (fun r => (r.gCount, r.gPairs[0]?, NameToFactory r "A")) =
        some (1, some { fName := some "A", fFactory := NULL }, Except.ok NULL) ∧
      (RegisterAll false Registry.initial
          [{ name := some "A", factory := NULL }]).toOption.map
        (fun r => decide (NameToFactory r "A" = Except.ok NULL ↔
          ∀ c ∈ [({ name := some "A", factory := NULL } : RegisterCall)],
            c.name ≠ some "A")) = some false ∧
      (∃ c ∈ [({ name := none, factory := 1 } : RegisterCall)], c.factory = 1) ∧
      (RegisterAll false Registry.initial [{ name := none, factory := 1 }]).toOption.map
        (fun r => (r.gCount, r.gPairs[0]?, FactoryToName r 1)) =
        some (1, some { fName := none, fFactory := 1 }, Except.ok none) ∧
      (RegisterAll false Registry.initial [{ name := none, factory := 1 }]).toOption.map
        (fun r => decide (FactoryToName r 1 = Except.ok none ↔
          ∀ c ∈ [({ name := none, factory := 1 } : RegisterCall)], c.factory ≠ 1)) =
        some false := by
  decide

/-- C10: inverse lookup.  For every sequence of at most 16 `Register` calls with
non-null names and factories (in either build) and every factory `f` registered at
least once, the calls return and `FactoryToName(f)` returns the name of the most
recently registered entry whose factory is `f`: the entry of call `i`, no later call
having that factory. -/
theorem FactoryToName_last_registered (dbg : Bool) (calls : List RegisterCall)
    (f : Nat) (hlen : calls.length ≤ MAX_PAIR_COUNT)
    (hvalid : ∀ c ∈ calls, c.name ≠ none ∧ c.factory ≠ NULL)
    (hreg : ∃ c ∈ calls, c.factory = f) :
    ∃ (r : Registry) (i : Nat) (c : RegisterCall),
      RegisterAll dbg Registry.initial calls = Except.ok r ∧
      calls[i]? = some c ∧ c.factory = f ∧
      (∀ (j : Nat) (c1 : RegisterCall), i < j → calls[j]? = some c1 → c1.factory ≠ f) ∧
      FactoryToName r f = Except.ok c.name := by
  obtain ⟨r, hr, hH⟩ := RegisterAll_holds dbg calls [] Registry.initial
    Registry.initial_holds (by simpa using hlen) hvalid
  rw [List.nil_append] at hH
  rcases FactoryToName_cases calls r f hH with ⟨hnone, _⟩ | ⟨i, c, h1, h2, h3, h4⟩
  · obtain ⟨c, hc, hcf⟩ := hreg
    exact absurd hcf (hnone c hc)
  · exact ⟨r, i, c, hr, h1, h2, h3, h4⟩

/-- The C10 result on the spec's example: after A -> f1, B -> f2, A -> f3 the inverse
lookup of f2 returns "B". -/
theorem FactoryToName_last_registered_witness :
    sampleCalls.length ≤ MAX_PAIR_COUNT ∧
      (∀ c ∈ sampleCalls, c.name ≠ none ∧ c.factory ≠ NULL) ∧
      (∃ c ∈ sampleCalls, c.factory = 2) ∧
      (RegisterAll true Registry.initial sampleCalls).toOption.map
          (fun r => FactoryToName r 2) = some (Except.ok (some "B")) ∧
      (∃ (r : Registry) (i : Nat) (c : RegisterCall),
        RegisterAll true Registry.initial sampleCalls = Except.ok r ∧
        sampleCalls[i]? = some c ∧ c.factory = 2 ∧
        (∀ (j : Nat) (c1 : RegisterCall), i < j → sampleCalls[j]? = some c1 →
          c1.factory ≠ 2) ∧
        FactoryToName r 2 = Except.ok c.name) :=
  ⟨by decide, by decide, by decide, by decide,
   FactoryToName_last_registered true sampleCalls 2 (by decide) (by decide) (by decide)⟩

/-! ## Release, cleared pointers and the sign of the lock count -/

/-- Only an `unlockPixels` that takes the count from 1 to 0 adds an `onUnlockPixels`
invocation to the record. -/
theorem step_releaseCalls (dbg : Bool) (k : Hooks σ) (w w1 : World σ) (op : Op)
    (hs : step dbg k w op = Except.ok w1) :
    releaseCalls w1.hookCalls =
      releaseCalls w.hookCalls +
        (if w.ref.fLockCount = 1 ∧ w1.ref.fLockCount = 0 then 1 else 0) := by
  by_cases hl : op = Op.lockPixels
  · subst hl
    simp only [step, Except.ok.injEq] at hs
    subst hs
    by_cases hz : w.ref.fLockCount = 0
    · rw [lockPixels_of_zero k w hz, if_neg (fun h => by rw [hz] at h; exact absurd h.1 (by decide))]
      simp [releaseCalls]
    · rw [lockPixels_of_ne_zero k w hz]
      have hne : ¬ (w.ref.fLockCount = 1 ∧ w.ref.fLockCount + 1 = 0) := by omega
      rw [if_neg hne]
      rfl
  · by_cases hul : op = Op.unlockPixels
    · subst hul
      simp only [step] at hs
      rcases unlockPixels_ok_cases dbg k w w1 hs with ⟨h1, e⟩ | ⟨h1, e⟩
      · subst e
        rw [if_pos ⟨h1, rfl⟩]
        simp [releaseCalls]
      · subst e
        rw [if_neg (fun h => h1 h.1)]
        rfl
    · obtain ⟨_, _, hc, hh⟩ := step_frame dbg k w w1 op hl hul hs
      rw [hh, hc, if_neg (by omega)]
      rfl

/-- Along every run that returns, the `onUnlockPixels` invocations added to the record
are as many as the 1-to-0 steps of the lock count. -/
theorem run_releaseCalls (dbg : Bool) (k : Hooks σ) (ops : List Op) :
    ∀ (w w1 : World σ), run dbg k w ops = Except.ok w1 →
      releaseCalls w1.hookCalls =
        releaseCalls w.hookCalls + transitions10 (lockCountTrace dbg k w ops) := by
  induction ops with
  | nil => intro w w1 h; cases h; rfl
  | cons op rest ih =>
      intro w w1 h
      obtain ⟨w0, hs, hr⟩ := run_cons_inv dbg k w w1 op rest h
      have htr : lockCountTrace dbg k w (op :: rest) =
          w.ref.fLockCount :: lockCountTrace dbg k w0 rest := by
        simp only [lockCountTrace, hs]
      obtain ⟨tail, ht⟩ := lockCountTrace_eq_cons dbg k w0 rest
      rw [htr, ih w0 w1 hr, step_releaseCalls dbg k w w0 op hs, ht]
      simp only [transitions10]
      omega

/-- While locked the record holds one more `onLockPixels` than `onUnlockPixels`
invocation, otherwise as many. -/
theorem step_keeps_hook_balance (dbg : Bool) (k : Hooks σ) (w w1 : World σ) (op : Op)
    (hP : materializeCalls w.hookCalls =
      releaseCalls w.hookCalls + (if 0 < w.ref.fLockCount then 1 else 0))
    (h0 : 0 ≤ w.ref.fLockCount) (hu : op = Op.unlockPixels → 0 < w.ref.fLockCount)
    (hs : step dbg k w op = Except.ok w1) :
    materializeCalls w1.hookCalls =
      releaseCalls w1.hookCalls + (if 0 < w1.ref.fLockCount then 1 else 0) := by
  have hm := step_materializeCalls dbg k w w1 op hs
  have hr := step_releaseCalls dbg k w w1 op hs
  have hc : w1.ref.fLockCount = w.ref.fLockCount + 1 ∨
      w1.ref.fLockCount = w.ref.fLockCount - 1 ∧ 0 < w.ref.fLockCount ∨
      w1.ref.fLockCount = w.ref.fLockCount := by
    by_cases hl : op = Op.lockPixels
    · subst hl
      simp only [step, Except.ok.injEq] at hs
      subst hs
      exact Or.inl (lockPixels_lockCount k w)
    · by_cases hul : op = Op.unlockPixels
      · subst hul
        exact Or.inr (Or.inl ⟨unlockPixels_lockCount dbg k w w1 hs, hu rfl⟩)
      · exact Or.inr (Or.inr (step_frame dbg k w w1 op hl hul hs).2.2.1)
  rw [hm, hr, hP]
  rcases hc with h | ⟨h, hpos⟩ | h
  · rw [h]
    by_cases hz : w.ref.fLockCount = 0
    · rw [hz]; simp
    · have h1 : 0 < w.ref.fLockCount := by omega
      have h2 : ¬ (w.ref.fLockCount = 0 ∧ w.ref.fLockCount + 1 = 1) := fun h => hz h.1
      have h3 : ¬ (w.ref.fLockCount = 1 ∧ w.ref.fLockCount + 1 = 0) := by omega
      have h4 : 0 < w.ref.fLockCount + 1 := by omega
      rw [if_pos h1, if_neg h2, if_neg h3, if_pos h4]
  · rw [h]
    by_cases h1 : w.ref.fLockCount = 1
    · rw [h1]; simp
    · have h2 : ¬ (w.ref.fLockCount = 0 ∧ w.ref.fLockCount - 1 = 1) := by omega
      have h3 : ¬ (w.ref.fLockCount = 1 ∧ w.ref.fLockCount - 1 = 0) := fun h => h1 h.1
      have h4 : 0 < w.ref.fLockCount - 1 := by omega
      rw [if_pos hpos, if_neg h2, if_neg h3, if_pos h4]
  · rw [h]
    have h2 : ¬ (w.ref.fLockCount = 0 ∧ w.ref.fLockCount = 1) := by omega
    have h3 : ¬ (w.ref.fLockCount = 1 ∧ w.ref.fLockCount = 0) := by omega
    rw [if_neg h2, if_neg h3, Nat.add_zero, Nat.add_zero]

/-- C11: for every well-paired sequence of calls on a fresh handle (empty hook record, in
either build, for every subtype), after each call (after the first `n` calls, for every
`n`) the number of `onUnlockPixels` invocations equals the number of steps that took
`fLockCount` from 1 to 0, and the number of `onLockPixels` invocations equals the number
of `onUnlockPixels` invocations plus one when `fLockCount > 0` and equals it when
`fLockCount = 0`; an `unlockPixels` made at `fLockCount = 1` invokes the hook exactly once
and makes the count 0, and no other `unlockPixels` call that returns invokes a hook. -/
theorem onUnlockPixels_once_per_transition (dbg : Bool) (k : Hooks σ) (w : World σ)
    (mutex : Option Nat) (ops : List Op) (n : Nat)
    (hfresh : w.ref = SkPixelRef.create mutex) (hlog : w.hookCalls = [])
    (hp : wellPaired ops = true) :
    (∃ w1, run dbg k w (ops.take n) = Except.ok w1 ∧
        releaseCalls w1.hookCalls = transitions10 (lockCountTrace dbg k w (ops.take n)) ∧
        materializeCalls w1.hookCalls =
          releaseCalls w1.hookCalls + (if 0 < w1.ref.fLockCount then 1 else 0)) ∧
      (∀ x x1 : World σ, unlockPixels dbg k x = Except.ok x1 → x.ref.fLockCount = 1 →
        x1.ref.fLockCount = 0 ∧ x1.hookCalls = x.hookCalls ++ [HookCall.onUnlockPixels]) ∧
      (∀ x x1 : World σ, unlockPixels dbg k x = Except.ok x1 → x.ref.fLockCount ≠ 1 →
        x1.hookCalls = x.hookCalls) := by
  have h0 : w.ref.fLockCount = ((0 : Nat) : Int) := by rw [hfresh]; rfl
  have hP : materializeCalls w.hookCalls =
      releaseCalls w.hookCalls + (if 0 < w.ref.fLockCount then 1 else 0) := by
    rw [hlog, hfresh]; rfl
  obtain ⟨w1, hrun, hP1, _⟩ := run_paired dbg k _ (step_keeps_hook_balance dbg k)
    (ops.take n) 0 w h0 (pairedFrom_take n ops 0 hp) hP
  refine ⟨⟨w1, hrun, ?_, hP1⟩, ?_, ?_⟩
  · rw [run_releaseCalls dbg k (ops.take n) w w1 hrun, hlog]
    simp [releaseCalls]
  · intro x x1 hx h1
    rw [unlockPixels_of_one dbg k x h1] at hx
    cases hx
    exact ⟨rfl, rfl⟩
  · intro x x1 hx h1
    rcases unlockPixels_ok_cases dbg k x x1 hx with ⟨h, _⟩ | ⟨_, e⟩
    · exact absurd h h1
    · rw [e]

/-- The C11 result at a concrete run: lock, nested lock, two unlocks, lock again,
observed after four of the five calls (count 0, one materialize, one release). -/
theorem onUnlockPixels_once_per_transition_witness :
    (World.fresh none (0 : Nat)).ref = SkPixelRef.create none ∧
      (World.fresh none (0 : Nat)).hookCalls = [] ∧
      wellPaired [Op.lockPixels, Op.lockPixels, Op.unlockPixels, Op.unlockPixels,
        Op.lockPixels] = true ∧
      (run true mallocPixelRef (World.fresh none (0 : Nat))
        ([Op.lockPixels, Op.lockPixels, Op.unlockPixels, Op.unlockPixels,
          Op.lockPixels].take 4)).toOption.map
        (fun w1 => (materializeCalls w1.hookCalls, releaseCalls w1.hookCalls,
          w1.ref.fLockCount)) = some (1, 1, 0) ∧
      (∃ w1, run true mallocPixelRef (World.fresh none (0 : Nat))
          ([Op.lockPixels, Op.lockPixels, Op.unlockPixels, Op.unlockPixels,
            Op.lockPixels].take 4) = Except.ok w1 ∧
        releaseCalls w1.hookCalls =
          transitions10 (lockCountTrace true mallocPixelRef (World.fresh none (0 : Nat))
            ([Op.lockPixels, Op.lockPixels, Op.unlockPixels, Op.unlockPixels,
              Op.lockPixels].take 4)) ∧
        materializeCalls w1.hookCalls =
          releaseCalls w1.hookCalls + (if 0 < w1.ref.fLockCount then 1 else 0)) :=
  ⟨rfl, rfl, by decide, by decide,
   (onUnlockPixels_once_per_transition true mallocPixelRef (World.fresh none (0 : Nat)) none
     [Op.lockPixels, Op.lockPixels, Op.unlockPixels, Op.unlockPixels, Op.lockPixels] 4
     rfl rfl (by decide)).1⟩

/-- Without a lock both cached pointers are null. -/
theorem step_keeps_cleared (dbg : Bool) (k : Hooks σ) (w w1 : World σ) (op : Op)
    (hP : w.ref.fLockCount = 0 → w.ref.fPixels = NULL ∧ w.ref.fColorTable = NULL)
    (h0 : 0 ≤ w.ref.fLockCount) (_hu : op = Op.unlockPixels → 0 < w.ref.fLockCount)
    (hs : step dbg k w op = Except.ok w1) :
    w1.ref.fLockCount = 0 → w1.ref.fPixels = NULL ∧ w1.ref.fColorTable = NULL := by
  by_cases hl : op = Op.lockPixels
  · subst hl
    simp only [step, Except.ok.injEq] at hs
    subst hs
    intro hz
    rw [lockPixels_lockCount] at hz
    omega
  · by_cases hul : op = Op.unlockPixels
    · subst hul
      simp only [step] at hs
      intro hz
      rcases unlockPixels_ok_cases dbg k w w1 hs with ⟨_, e⟩ | ⟨h1, e⟩
      · rw [e]; exact ⟨rfl, rfl⟩
      · rw [unlockPixels_lockCount dbg k w w1 hs] at hz
        omega
    · obtain ⟨hpx, hct, hc, _⟩ := step_frame dbg k w w1 op hl hul hs
      rw [hpx, hct, hc]
      exact hP

/-- C12: no dangling cached pointer.  For every well-paired sequence of calls on a fresh
handle and every behaviour of the subtype (in either build), after each call (after the
first `n` calls, for every `n`), whenever `fLockCount` is 0 both `fPixels` and
`fColorTable` are null; and an `unlockPixels` that returns with the count at 0 has
cleared both. -/
theorem no_dangling_pixels (dbg : Bool) (k : Hooks σ) (w : World σ)
    (mutex : Option Nat) (ops : List Op) (n : Nat)
    (hfresh : w.ref = SkPixelRef.create mutex) (hp : wellPaired ops = true) :
    (∃ w1, run dbg k w (ops.take n) = Except.ok w1 ∧
        (w1.ref.fLockCount = 0 → w1.ref.fPixels = NULL ∧ w1.ref.fColorTable = NULL)) ∧
      (∀ x x1 : World σ, unlockPixels dbg k x = Except.ok x1 → x1.ref.fLockCount = 0 →
        x.ref.fLockCount = 1 ∧ x1.ref.fPixels = NULL ∧ x1.ref.fColorTable = NULL) := by
  have h0 : w.ref.fLockCount = ((0 : Nat) : Int) := by rw [hfresh]; rfl
  have hP : w.ref.fLockCount = 0 → w.ref.fPixels = NULL ∧ w.ref.fColorTable = NULL := by
    rw [hfresh]; exact fun _ => ⟨rfl, rfl⟩
  obtain ⟨w1, hrun, hP1, _⟩ := run_paired dbg k _ (step_keeps_cleared dbg k)
    (ops.take n) 0 w h0 (pairedFrom_take n ops 0 hp) hP
  refine ⟨⟨w1, hrun, hP1⟩, ?_⟩
  intro x x1 hx hz
  rcases unlockPixels_ok_cases dbg k x x1 hx with ⟨h1, e⟩ | ⟨h1, e⟩
  · rw [e]; exact ⟨h1, rfl, rfl⟩
  · rw [unlockPixels_lockCount dbg k x x1 hx] at hz
    omega

/-- The C12 result at a concrete run: a subtype that hands out pixels is locked twice
and unlocked twice; after the fourth call the count is 0 and both pointers are null. -/
theorem no_dangling_pixels_witness :
    (World.fresh none (0 : Nat)).ref = SkPixelRef.create none ∧
      wellPaired [Op.lockPixels, Op.lockPixels, Op.unlockPixels, Op.unlockPixels] = true ∧
      (run true mallocPixelRef (World.fresh none (0 : Nat))
        ([Op.lockPixels, Op.lockPixels, Op.unlockPixels, Op.unlockPixels].take 4)).toOption.map
        (fun w1 => (w1.ref.fLockCount, w1.ref.fPixels, w1.ref.fColorTable)) =
          some (0, NULL, NULL) ∧
      (∃ w1, run true mallocPixelRef (World.fresh none (0 : Nat))
          ([Op.lockPixels, Op.lockPixels, Op.unlockPixels, Op.unlockPixels].take 4) =
            Except.ok w1 ∧
        (w1.ref.fLockCount = 0 → w1.ref.fPixels = NULL ∧ w1.ref.fColorTable = NULL)) :=
  ⟨rfl, by decide, by decide,
   (no_dangling_pixels true mallocPixelRef (World.fresh none (0 : Nat)) none
     [Op.lockPixels, Op.lockPixels, Op.unlockPixels, Op.unlockPixels] 4 rfl (by decide)).1⟩

/-- Each call that returns moves the lock count by the call it is: up for `lockPixels`,
down for `unlockPixels`, not at all otherwise. -/
theorem run_lockCount (dbg : Bool) (k : Hooks σ) (ops : List Op) :
    ∀ (w w1 : World σ), run dbg k w ops = Except.ok w1 →
      w1.ref.fLockCount = w.ref.fLockCount + (countLocks ops : Int) - (countUnlocks ops : Int) := by
  induction ops with
  | nil => intro w w1 h; cases h; simp [countLocks, countUnlocks]
  | cons op rest ih =>
      intro w w1 h
      obtain ⟨w0, hs, hr⟩ := run_cons_inv dbg k w w1 op rest h
      rw [ih w0 w1 hr]
      by_cases hl : op = Op.lockPixels
      · subst hl
        simp only [step, Except.ok.injEq] at hs
        subst hs
        rw [lockPixels_lockCount]
        simp [countLocks, countUnlocks, List.count_cons]
        omega
      · by_cases hul : op = Op.unlockPixels
        · subst hul
          rw [unlockPixels_lockCount dbg k w w0 hs]
          simp [countLocks, countUnlocks, List.count_cons]
          omega
        · rw [(step_frame dbg k w w0 op hl hul hs).2.2.1]
          have e1 : countLocks (op :: rest) = countLocks rest := by
            simp [countLocks, List.count_cons, hl]
          have e2 : countUnlocks (op :: rest) = countUnlocks rest := by
            simp [countUnlocks, List.count_cons, hul]
          rw [e1, e2]

/-- A sequence every start of which has at least as many locks (counting `d` held at
the outset) as unlocks is paired from depth `d`. -/
theorem pairedFrom_of_counts :
    ∀ (ops : List Op) (d : Nat),
      (∀ n, countUnlocks (ops.take n) ≤ d + countLocks (ops.take n)) →
      pairedFrom d ops = true := by
  intro ops
  induction ops with
  | nil => intro d _; rfl
  | cons op rest ih =>
      intro d h
      by_cases hl : op = Op.lockPixels
      · subst hl
        refine ih (d + 1) (fun n => ?_)
        have := h (n + 1)
        simp [countLocks, countUnlocks, List.count_cons] at this ⊢
        omega
      · by_cases hul : op = Op.unlockPixels
        · subst hul
          have h1 := h 1
          simp [countLocks, countUnlocks, List.count_cons] at h1
          simp only [pairedFrom, Bool.and_eq_true, decide_eq_true_eq]
          refine ⟨by omega, ih (d - 1) (fun n => ?_)⟩
          have := h (n + 1)
          simp [countLocks, countUnlocks, List.count_cons] at this ⊢
          omega
        · have hrest : pairedFrom d rest = true := by
            refine ih d (fun n => ?_)
            have := h (n + 1)
            simp [countLocks, countUnlocks, List.count_cons, hl, hul] at this ⊢
            omega
          cases op with
          | lockPixels => exact absurd rfl hl
          | unlockPixels => exact absurd rfl hul
          | getGenerationID => exact hrest
          | notifyPixelsChanged => exact hrest
          | lockPixelsAreWritable => exact hrest
          | setImmutable => exact hrest
          | readPixels dst subset => exact hrest
          | flatten => exact hrest
          | otherDraw => exact hrest

/-- C13: `fLockCount` never goes negative.  For every sequence of calls on a fresh handle
every start of which contains at least as many `lockPixels` as `unlockPixels` calls (in
either build, for every subtype), the first `n` calls return, for every `n`; after them
`fLockCount` equals the number of locks minus the number of unlocks so far, which is at
least 0; and if the next call is an `unlockPixels`, its assertion `fLockCount > 0`
holds. -/
theorem fLockCount_never_negative (dbg : Bool) (k : Hooks σ) (w : World σ)
    (mutex : Option Nat) (ops : List Op) (n : Nat)
    (hfresh : w.ref = SkPixelRef.create mutex)
    (hstarts : ∀ m, countUnlocks (ops.take m) ≤ countLocks (ops.take m)) :
    ∃ w1, run dbg k w (ops.take n) = Except.ok w1 ∧
      w1.ref.fLockCount = (countLocks (ops.take n) : Int) - (countUnlocks (ops.take n) : Int) ∧
      0 ≤ w1.ref.fLockCount ∧
      (ops[n]? = some Op.unlockPixels → 0 < w1.ref.fLockCount) := by
  have h0 : w.ref.fLockCount = ((0 : Nat) : Int) := by rw [hfresh]; rfl
  have hp : pairedFrom 0 ops = true :=
    pairedFrom_of_counts ops 0 (fun m => by have := hstarts m; omega)
  obtain ⟨w1, hrun, _, hge⟩ := run_paired dbg k (fun _ => True) (fun _ _ _ _ _ _ _ => trivial)
    (ops.take n) 0 w h0 (pairedFrom_take n ops 0 hp) trivial
  have hcount := run_lockCount dbg k (ops.take n) w w1 hrun
  rw [h0] at hcount
  refine ⟨w1, hrun, by rw [hcount]; simp, hge, ?_⟩
  intro hnext
  have hs := hstarts (n + 1)
  rw [List.take_succ, hnext] at hs
  simp [countLocks, countUnlocks] at hs
  rw [hcount]
  simp [countLocks, countUnlocks]
  omega

/-- The C13 result at a concrete run: lock, lock, unlock, unlock, observed after two
calls, where the count is 2 and the next call is an `unlockPixels`. -/
theorem fLockCount_never_negative_witness :
    (World.fresh none (0 : Nat)).ref = SkPixelRef.create none ∧
      (∀ m, countUnlocks
          ([Op.lockPixels, Op.lockPixels, Op.unlockPixels, Op.unlockPixels].take m) ≤
        countLocks ([Op.lockPixels, Op.lockPixels, Op.unlockPixels, Op.unlockPixels].take m)) ∧
      (run true mallocPixelRef (World.fresh none (0 : Nat))
        ([Op.lockPixels, Op.lockPixels, Op.unlockPixels, Op.unlockPixels].take 2)).toOption.map
        (fun w1 => w1.ref.fLockCount) = some 2 ∧
      (∃ w1, run true mallocPixelRef (World.fresh none (0 : Nat))
          ([Op.lockPixels, Op.lockPixels, Op.unlockPixels, Op.unlockPixels].take 2) =
            Except.ok w1 ∧
        w1.ref.fLockCount =
          (countLocks ([Op.lockPixels, Op.lockPixels, Op.unlockPixels,
            Op.unlockPixels].take 2) : Int) -
          (countUnlocks ([Op.lockPixels, Op.lockPixels, Op.unlockPixels,
            Op.unlockPixels].take 2) : Int) ∧
        0 ≤ w1.ref.fLockCount ∧
        ([Op.lockPixels, Op.lockPixels, Op.unlockPixels, Op.unlockPixels][2]? =
          some Op.unlockPixels → 0 < w1.ref.fLockCount)) :=
  have hstarts : ∀ m, countUnlocks
      ([Op.lockPixels, Op.lockPixels, Op.unlockPixels, Op.unlockPixels].take m) ≤
      countLocks ([Op.lockPixels, Op.lockPixels, Op.unlockPixels, Op.unlockPixels].take m) := by
    intro m
    rcases m with _ | _ | _ | _ | _ | m
    · decide
    · decide
    · decide
    · decide
    · decide
    · simp [List.take, countLocks, countUnlocks, List.count_cons]
  ⟨rfl, hstarts, by decide,
   fLockCount_never_negative true mallocPixelRef (World.fresh none (0 : Nat)) none
     [Op.lockPixels, Op.lockPixels, Op.unlockPixels, Op.unlockPixels] 2 rfl hstarts⟩

/-! ## Invalidation, the counter loop, and identity under locking -/

/-- C14: `notifyPixelsChanged` always proceeds.  For every handle state, `fIsImmutable`
true included, and in either build, it sets `fGenerationID` to 0 and leaves
`fIsImmutable`, `fLockCount`, `fPixels` and `fColorTable` (and the static counter)
unchanged, so the next `getGenerationID` draws from the counter: it returns the non-zero
value `SkNextPixelRefGenerationID` gives, and one more ID has been drawn. -/
theorem notifyPixelsChanged_always_proceeds (dbg : Bool) (w : World σ) :
    (notifyPixelsChanged dbg w).ref.fGenerationID = 0 ∧
      (notifyPixelsChanged dbg w).ref.fIsImmutable = w.ref.fIsImmutable ∧
      (notifyPixelsChanged dbg w).ref.fLockCount = w.ref.fLockCount ∧
      (notifyPixelsChanged dbg w).ref.fPixels = w.ref.fPixels ∧
      (notifyPixelsChanged dbg w).ref.fColorTable = w.ref.fColorTable ∧
      (notifyPixelsChanged dbg w).gPixelRefGenerationID = w.gPixelRefGenerationID ∧
      (getGenerationID (notifyPixelsChanged dbg w)).1 =
        (SkNextPixelRefGenerationID w.gPixelRefGenerationID).genID ∧
      (getGenerationID (notifyPixelsChanged dbg w)).1 ≠ 0 ∧
      (getGenerationID (notifyPixelsChanged dbg w)).2.idsDrawn = w.idsDrawn + 1 := by
  obtain ⟨e1, e2, e3⟩ := notifyPixelsChanged_fields dbg w
  have hz : (notifyPixelsChanged dbg w).ref.fGenerationID = 0 := by rw [e1]
  have hget : getGenerationID (notifyPixelsChanged dbg w) =
      ((SkNextPixelRefGenerationID w.gPixelRefGenerationID).genID,
       { notifyPixelsChanged dbg w with
         ref := { (notifyPixelsChanged dbg w).ref with
           fGenerationID := (SkNextPixelRefGenerationID w.gPixelRefGenerationID).genID }
         gPixelRefGenerationID := (SkNextPixelRefGenerationID w.gPixelRefGenerationID).counter
         idsDrawn := w.idsDrawn + 1 }) := by
    unfold getGenerationID
    rw [if_pos hz.symm, e2, e3]
  refine ⟨hz, by rw [e1], by rw [e1], by rw [e1], by rw [e1], e2, ?_, ?_, ?_⟩
  · rw [hget]
  · rw [hget]
    exact SkNextPixelRefGenerationID_genID_ne_zero _
  · rw [hget]

/-- C17: for every value `c` of the 32-bit counter (arithmetic modulo `2 ^ 32`) the
do-while loop of `SkNextPixelRefGenerationID` ends after at most two increments, returns
`c + 1` when that is non-zero modulo `2 ^ 32` and 1 otherwise, and leaves the counter
equal to the value returned. -/
theorem SkNextPixelRefGenerationID_two_increments (c : Nat) :
    1 ≤ (SkNextPixelRefGenerationID c).incs ∧
      (SkNextPixelRefGenerationID c).incs ≤ 2 ∧
      (SkNextPixelRefGenerationID c).genID =
        (if (c + 1) % WORD = 0 then 1 else (c + 1) % WORD) ∧
      (SkNextPixelRefGenerationID c).counter = (SkNextPixelRefGenerationID c).genID ∧
      (SkNextPixelRefGenerationID (WORD - 1)).genID = 1 ∧
      (SkNextPixelRefGenerationID (WORD - 1)).incs = 2 := by
  have hmax : SkNextPixelRefGenerationID (WORD - 1) = { genID := 1, counter := 1, incs := 2 } := by
    rw [SkNextPixelRefGenerationID_eq]
    simp [WORD]
  by_cases h : (c + 1) % WORD = 0
  · have e : SkNextPixelRefGenerationID c = { genID := 1, counter := 1, incs := 2 } := by
      rw [SkNextPixelRefGenerationID_eq, if_pos h]
    rw [hmax, e, if_pos h]
    exact ⟨by decide, le_refl _, rfl, rfl, rfl, rfl⟩
  · have e : SkNextPixelRefGenerationID c =
        { genID := (c + 1) % WORD, counter := (c + 1) % WORD, incs := 1 } := by
      rw [SkNextPixelRefGenerationID_eq, if_neg h]
    rw [hmax, e, if_neg h]
    exact ⟨le_refl _, Nat.le_succ 1, rfl, rfl, rfl, rfl⟩

/-- Neither `lockPixels` nor a returning `unlockPixels` touches the generation ID, the
immutability flag or the static counter. -/
theorem step_locking_keeps_identity (dbg : Bool) (k : Hooks σ) (w w1 : World σ) (op : Op)
    (hop : op = Op.lockPixels ∨ op = Op.unlockPixels)
    (hs : step dbg k w op = Except.ok w1) :
    w1.ref.fGenerationID = w.ref.fGenerationID ∧ w1.ref.fIsImmutable = w.ref.fIsImmutable ∧
      w1.gPixelRefGenerationID = w.gPixelRefGenerationID ∧ w1.idsDrawn = w.idsDrawn := by
  rcases hop with e | e
  · subst e
    simp only [step, Except.ok.injEq] at hs
    subst hs
    by_cases h : w.ref.fLockCount = 0
    · rw [lockPixels_of_zero k w h]; exact ⟨rfl, rfl, rfl, rfl⟩
    · rw [lockPixels_of_ne_zero k w h]; exact ⟨rfl, rfl, rfl, rfl⟩
  · subst e
    simp only [step] at hs
    rcases unlockPixels_ok_cases dbg k w w1 hs with ⟨_, e⟩ | ⟨_, e⟩ <;>
      (subst e; exact ⟨rfl, rfl, rfl, rfl⟩)

/-- C19: locking never invalidates identity.  For every handle state (and subtype hooks
that act on their own state only), `lockPixels` and a returning `unlockPixels` leave
`fGenerationID` and `fIsImmutable` unchanged and do not draw from the process-wide
counter; so after any sequence of `lockPixels` / `unlockPixels` calls `getGenerationID`
still returns the ID obtained before the sequence, without drawing. -/
theorem locking_keeps_identity (dbg : Bool) (k : Hooks σ) (w w1 : World σ) (ops : List Op)
    (hops : ∀ op ∈ ops, op = Op.lockPixels ∨ op = Op.unlockPixels)
    (hrun : run dbg k (getGenerationID w).2 ops = Except.ok w1) :
    (getGenerationID w1).1 = (getGenerationID w).1 ∧
      (getGenerationID w1).2 = w1 ∧
      w1.ref.fIsImmutable = (getGenerationID w).2.ref.fIsImmutable ∧
      w1.gPixelRefGenerationID = (getGenerationID w).2.gPixelRefGenerationID ∧
      w1.idsDrawn = (getGenerationID w).2.idsDrawn ∧
      (∀ x : World σ,
        (lockPixels k x).ref.fGenerationID = x.ref.fGenerationID ∧
          (lockPixels k x).ref.fIsImmutable = x.ref.fIsImmutable ∧
          (lockPixels k x).gPixelRefGenerationID = x.gPixelRefGenerationID ∧
          (lockPixels k x).idsDrawn = x.idsDrawn) ∧
      (∀ x x1 : World σ, unlockPixels dbg k x = Except.ok x1 →
        x1.ref.fGenerationID = x.ref.fGenerationID ∧
          x1.ref.fIsImmutable = x.ref.fIsImmutable ∧
          x1.gPixelRefGenerationID = x.gPixelRefGenerationID ∧
          x1.idsDrawn = x.idsDrawn) := by
  have hkeep := run_preserves dbg k
    (fun x => x.ref.fGenerationID = (getGenerationID w).2.ref.fGenerationID ∧
      x.ref.fIsImmutable = (getGenerationID w).2.ref.fIsImmutable ∧
      x.gPixelRefGenerationID = (getGenerationID w).2.gPixelRefGenerationID ∧
      x.idsDrawn = (getGenerationID w).2.idsDrawn) ops
    (fun a b op hop hP hs => by
      obtain ⟨h1, h2, h3, h4⟩ := step_locking_keeps_identity dbg k a b op (hops op hop) hs
      exact ⟨h1.trans hP.1, h2.trans hP.2.1, h3.trans hP.2.2.1, h4.trans hP.2.2.2⟩)
    _ w1 ⟨rfl, rfl, rfl, rfl⟩ hrun
  have hne : w1.ref.fGenerationID ≠ 0 := by
    rw [hkeep.1]; exact getGenerationID_cache_ne_zero w
  rw [getGenerationID_cached w1 hne]
  refine ⟨hkeep.1.trans (getGenerationID_fst w).symm, rfl, hkeep.2.1, hkeep.2.2.1,
    hkeep.2.2.2, ?_, ?_⟩
  · intro x
    exact step_locking_keeps_identity dbg k x _ Op.lockPixels (Or.inl rfl) rfl
  · intro x x1 hx
    exact step_locking_keeps_identity dbg k x x1 Op.unlockPixels (Or.inr rfl) hx

/-- The C19 result at a concrete run: a fresh handle is queried (ID 1), locked twice and
unlocked twice, in a debug build; the next query still returns 1. -/
theorem locking_keeps_identity_witness :
    (∀ op ∈ [Op.lockPixels, Op.lockPixels, Op.unlockPixels, Op.unlockPixels],
        op = Op.lockPixels ∨ op = Op.unlockPixels) ∧
      (getGenerationID (World.fresh none (0 : Nat))).1 = 1 ∧
      (getGenerationID
          ({ ref := { SkPixelRef.create none with fGenerationID := 1 }
             sub := 1
             gPixelRefGenerationID := 1
             out := { items := [] }
             console := []
             hookCalls := [HookCall.onLockPixels, HookCall.onUnlockPixels]
             idsDrawn := 1 } : World Nat)).1 =
        (getGenerationID (World.fresh none (0 : Nat))).1 :=
  ⟨by decide,
   by simp [getGenerationID, World.fresh, SkPixelRef.create, SkNextPixelRefGenerationID_eq, WORD],
   (locking_keeps_identity true mallocPixelRef (World.fresh none (0 : Nat)) _
      [Op.lockPixels, Op.lockPixels, Op.unlockPixels, Op.unlockPixels] (by decide)
      (by simp [run, step, getGenerationID, World.fresh, SkPixelRef.create,
            SkNextPixelRefGenerationID_eq, WORD, lockPixels, unlockPixels, SkASSERT,
            mallocPixelRef, Hooks.withBaseDefaults, NULL])).1⟩

/-! ## Distinct generation IDs before the wrap -/

/-- One draw from a 32-bit counter, in closed form: the counter cycles through the
values 1 to `2 ^ 32 - 1`. -/
theorem SkNextPixelRefGenerationID_cycle (g : Nat) (hg : g < WORD) :
    SkNextPixelRefGenerationID g =
      { genID := g % (WORD - 1) + 1, counter := g % (WORD - 1) + 1,
        incs := if g = WORD - 1 then 2 else 1 } := by
  rw [SkNextPixelRefGenerationID_eq]
  simp only [WORD] at hg ⊢
  by_cases h : (g + 1) % 2 ^ 32 = 0
  · have hgm : g = 2 ^ 32 - 1 := by omega
    rw [if_pos h, if_pos hgm, hgm]
    rfl
  · have hgm : g ≠ 2 ^ 32 - 1 := by omega
    have e : (g + 1) % 2 ^ 32 = g % (2 ^ 32 - 1) + 1 := by omega
    rw [if_neg h, if_neg hgm, e]

theorem drawSeq_length : ∀ (n g : Nat), (drawSeq g n).length = n := by
  intro n
  induction n with
  | zero => intro g; rfl
  | succ n ih => intro g; simp [drawSeq, ih]

/-- The draw number `i` (from 0) of a run started with the counter at `g`. -/
theorem drawSeq_getElem? : ∀ (n g i : Nat), g < WORD → i < n →
    (drawSeq g n)[i]? = some ((g + i) % (WORD - 1) + 1) := by
  intro n
  induction n with
  | zero => intro g i _ hi; omega
  | succ n ih =>
      intro g i hg hi
      have hnext := SkNextPixelRefGenerationID_cycle g hg
      cases i with
      | zero =>
          simp only [drawSeq, hnext, List.getElem?_cons_zero, Nat.add_zero]
      | succ i =>
          have hlt : g % (WORD - 1) + 1 < WORD := by
            simp only [WORD] at hg ⊢
            omega
          simp only [drawSeq, hnext, List.getElem?_cons_succ]
          rw [ih (g % (WORD - 1) + 1) i hlt (by omega)]
          simp only [WORD] at hg ⊢
          congr 1
          omega

/-- The counter after `i + 1` draws holds the value the last of them returned. -/
theorem counterAfter_succ : ∀ (i g : Nat), g < WORD →
    counterAfter g (i + 1) = (g + i) % (WORD - 1) + 1 := by
  intro i
  induction i with
  | zero =>
      intro g hg
      simp only [counterAfter, SkNextPixelRefGenerationID_cycle g hg, Nat.add_zero]
  | succ i ih =>
      intro g hg
      have hlt : g % (WORD - 1) + 1 < WORD := by
        simp only [WORD] at hg ⊢
        omega
      have e : counterAfter g (i + 1 + 1) = counterAfter (g % (WORD - 1) + 1) (i + 1) := by
        simp only [counterAfter, SkNextPixelRefGenerationID_cycle g hg]
      rw [e, ih _ hlt]
      simp only [WORD] at hg ⊢
      omega

/-- C15: generation IDs are not re-issued before the counter wraps.  In any run of at
most `2 ^ 32 - 1` consecutive draws from `SkNextPixelRefGenerationID`, whatever 32-bit
value `g` the counter holds at its start, the values returned are pairwise distinct; so
a stale handle that draws first in the run and another stale handle that draws after
`m` further draws (both within the run) get different IDs from `getGenerationID`. -/
theorem generation_ids_distinct_before_wrap (g n : Nat) (hg : g < WORD) (hn : n ≤ WORD - 1) :
    (drawSeq g n).Nodup ∧
      (∀ i j : Nat, i < j → j < n → (drawSeq g n)[i]? ≠ (drawSeq g n)[j]?) ∧
      (∀ (τ : Type) (wa wb : World τ) (m : Nat),
        wa.ref.fGenerationID = 0 → wb.ref.fGenerationID = 0 →
        wa.gPixelRefGenerationID = g →
        wb.gPixelRefGenerationID = counterAfter g (m + 1) → m + 2 ≤ n →
        (getGenerationID wa).1 ≠ (getGenerationID wb).1) := by
  have hpair : ∀ i j : Nat, i < j → j < n → (drawSeq g n)[i]? ≠ (drawSeq g n)[j]? := by
    intro i j hij hj
    rw [drawSeq_getElem? n g i hg (by omega), drawSeq_getElem? n g j hg hj]
    intro e
    have e1 := Option.some.inj e
    simp only [WORD] at hg hn e1
    omega
  refine ⟨?_, hpair, ?_⟩
  · rw [List.nodup_iff_getElem?_ne_getElem?]
    intro i j hij hj
    rw [drawSeq_length] at hj
    exact hpair i j hij hj
  · intro τ wa wb m ha hb hga hgb hm
    have hca : (getGenerationID wa).1 = g % (WORD - 1) + 1 := by
      unfold getGenerationID
      rw [if_pos ha.symm, hga, SkNextPixelRefGenerationID_cycle g hg]
    have hlt : (g + m) % (WORD - 1) + 1 < WORD := by
      simp only [WORD]
      omega
    have hcb : (getGenerationID wb).1 = ((g + m) % (WORD - 1) + 1) % (WORD - 1) + 1 := by
      unfold getGenerationID
      rw [if_pos hb.symm, hgb, counterAfter_succ m g hg,
        SkNextPixelRefGenerationID_cycle _ hlt]
    rw [hca, hcb]
    simp only [WORD] at hg hn ⊢
    omega

/-- The C15 result at a concrete run: five draws from process start return 1 to 5, and
two stale handles that draw first and fourth in that run get 1 and 4. -/
theorem generation_ids_distinct_before_wrap_witness :
    (0 : Nat) < WORD ∧ 5 ≤ WORD - 1 ∧
      drawSeq 0 5 = [1, 2, 3, 4, 5] ∧
      ((drawSeq 0 5).Nodup ∧
        (∀ i j : Nat, i < j → j < 5 → (drawSeq 0 5)[i]? ≠ (drawSeq 0 5)[j]?) ∧
        (∀ (τ : Type) (wa wb : World τ) (m : Nat),
          wa.ref.fGenerationID = 0 → wb.ref.fGenerationID = 0 →
          wa.gPixelRefGenerationID = 0 →
          wb.gPixelRefGenerationID = counterAfter 0 (m + 1) → m + 2 ≤ 5 →
          (getGenerationID wa).1 ≠ (getGenerationID wb).1)) :=
  ⟨by simp [WORD], by simp [WORD],
   by simp [drawSeq, SkNextPixelRefGenerationID_eq, WORD],
   generation_ids_distinct_before_wrap 0 5 (by simp [WORD]) (by simp [WORD])⟩

/-! ## Registry capacity and round trip -/

theorem RegisterAll_append (dbg : Bool) (xs ys : List RegisterCall) :
    ∀ r r1 : Registry, RegisterAll dbg r xs = Except.ok r1 →
      RegisterAll dbg r (xs ++ ys) = RegisterAll dbg r1 ys := by
  induction xs with
  | nil => intro r r1 h; cases h; rfl
  | cons c rest ih =>
      intro r r1 h
      simp only [RegisterAll] at h
      cases hreg : Register dbg r c.name c.factory with
      | error e => rw [hreg] at h; cases h
      | ok r0 =>
          rw [hreg] at h
          simp only [List.cons_append, RegisterAll, hreg]
          exact ih r0 r1 h

/-- A `Register` call within its contract and within capacity stores its pair at slot
`gCount` and increments `gCount`. -/
theorem Register_ok_eq (dbg : Bool) (calls : List RegisterCall) (r : Registry)
    (name : Option String) (factory : Nat) (hH : Registry.Holds calls r)
    (hlen : calls.length < MAX_PAIR_COUNT) (hname : name ≠ none) (hfact : factory ≠ NULL) :
    Register dbg r name factory =
      Except.ok { gOnce := true, gCount := calls.length + 1,
                  gPairs := r.gPairs.set calls.length (Pair.mk name factory) } := by
  obtain ⟨r1, hr1, hH1⟩ := Register_holds dbg calls r { name := name, factory := factory }
    hH hlen hname hfact
  obtain ⟨hroom, _⟩ := Register_ok_inv dbg r r1 name factory hr1
  have hcnt : (if (!r.gOnce) = true then 0 else r.gCount) = calls.length := by
    rcases hH.1 with h | ⟨h1, h2⟩
    · rw [h]; simpa using hH.2.1
    · rw [h1]
      by_cases hb : (!r.gOnce) = true
      · rw [if_pos hb]; rfl
      · rw [if_neg hb, h2]; rfl
  have hn : name.isSome = true := by
    cases hc : name with
    | none => exact absurd hc hname
    | some s => rfl
  have hf : (factory != NULL) = true := by simpa using hfact
  have ha1 : (!SkASSERT dbg name.isSome) = false := by rw [hn]; cases dbg <;> rfl
  have ha2 : (!SkASSERT dbg (factory != NULL)) = false := by rw [hf]; cases dbg <;> rfl
  have ha4 : (!SkASSERT dbg (decide True)) = false := by cases dbg <;> rfl
  unfold Register
  simp only [ha1, ha2, hcnt, ha4, hlen, if_true, Bool.false_eq_true, if_false]

/-- A `Register` call on a full table fails: on the capacity assertion in a debug build,
on the store past the end of `gPairs` otherwise. -/
theorem Register_full (dbg : Bool) (calls : List RegisterCall) (r : Registry)
    (name : Option String) (factory : Nat) (hH : Registry.Holds calls r)
    (hlen : calls.length = MAX_PAIR_COUNT) (hname : name ≠ none) (hfact : factory ≠ NULL) :
    Register dbg r name factory =
      Except.error (if dbg = true then Fault.assertion else Fault.undefinedBehaviour) := by
  have honce : r.gOnce = true := by
    rcases hH.1 with h | ⟨h1, _⟩
    · exact h
    · rw [h1] at hlen; cases hlen
  have hn : name.isSome = true := by
    cases hc : name with
    | none => exact absurd hc hname
    | some s => rfl
  have hf : (factory != NULL) = true := by simpa using hfact
  have ha1 : (!SkASSERT dbg name.isSome) = false := by rw [hn]; cases dbg <;> rfl
  have ha2 : (!SkASSERT dbg (factory != NULL)) = false := by rw [hf]; cases dbg <;> rfl
  have hcount : r.gCount = MAX_PAIR_COUNT := hH.2.1.trans hlen
  unfold Register
  simp only [ha1, ha2, honce, hcount, Bool.not_true, Bool.false_eq_true, if_false,
    lt_self_iff_false, decide_False]
  cases dbg <;> rfl

/-- C18: registry capacity.  For every sequence of `k <= 16` `Register` calls with
non-null name and factory starting from the empty registry (in either build), the calls
return and afterwards `gCount = k`; call number `i` (from 0) is made with `gCount = i`,
so its assertion `gCount < MAX_PAIR_COUNT` holds and its write is at index `i` in
`[0, 16)`; it stores its pair at that index, leaves every other slot unchanged and
makes `gCount = i + 1`; and when `k = 16` a 17th `Register` call fails on the capacity
assertion (in a release build: on the store past the end of the table). -/
theorem Register_capacity (dbg : Bool) (calls : List RegisterCall)
    (hlen : calls.length ≤ MAX_PAIR_COUNT)
    (hvalid : ∀ c ∈ calls, c.name ≠ none ∧ c.factory ≠ NULL) :
    ∃ r : Registry, RegisterAll dbg Registry.initial calls = Except.ok r ∧
      r.gCount = calls.length ∧
      (∀ (i : Nat) (c : RegisterCall), calls[i]? = some c →
        ∃ ri ri1 : Registry,
          RegisterAll dbg Registry.initial (calls.take i) = Except.ok ri ∧
          ri.gCount = i ∧ i < MAX_PAIR_COUNT ∧
          Register dbg ri c.name c.factory = Except.ok ri1 ∧
          ri1.gCount = i + 1 ∧
          ri1.gPairs = ri.gPairs.set i (Pair.mk c.name c.factory) ∧
          ri1.gPairs[i]? = some (Pair.mk c.name c.factory) ∧
          (∀ j : Nat, j ≠ i → ri1.gPairs[j]? = ri.gPairs[j]?) ∧
          RegisterAll dbg Registry.initial (calls.take (i + 1)) = Except.ok ri1) ∧
      (calls.length = MAX_PAIR_COUNT →
        ¬ (r.gCount < MAX_PAIR_COUNT) ∧
        ∀ (name : Option String) (factory : Nat), name ≠ none → factory ≠ NULL →
          Register dbg r name factory =
            Except.error (if dbg = true then Fault.assertion else Fault.undefinedBehaviour)) := by
  obtain ⟨r, hr, hH⟩ := RegisterAll_holds dbg calls [] Registry.initial
    Registry.initial_holds (by simpa using hlen) hvalid
  rw [List.nil_append] at hH
  refine ⟨r, hr, hH.2.1, ?_, ?_⟩
  · intro i c hi
    have hil : i < calls.length := by
      by_contra hge
      rw [List.getElem?_eq_none (by omega)] at hi
      cases hi
    have htl : (calls.take i).length = i := by
      rw [List.length_take]; omega
    obtain ⟨ri, hri, hHi⟩ := RegisterAll_holds dbg (calls.take i) [] Registry.initial
      Registry.initial_holds (by rw [List.nil_append, htl]; omega)
      (fun x hx => hvalid x (List.mem_of_mem_take hx))
    rw [List.nil_append] at hHi
    obtain ⟨hcn, hcf⟩ := hvalid c (List.getElem?_mem hi)
    have hreg := Register_ok_eq dbg (calls.take i) ri c.name c.factory hHi
      (by rw [htl]; omega) hcn hcf
    rw [htl] at hreg
    have hsize : i < ri.gPairs.length := by rw [hHi.2.2.1]; omega
    refine ⟨ri, _, hri, hHi.2.1.trans htl, by omega, hreg, rfl, rfl, ?_, ?_, ?_⟩
    · exact List.getElem?_set_self hsize
    · intro j hj
      exact List.getElem?_set_ne (fun e => hj e.symm)
    · rw [List.take_succ, hi, RegisterAll_append dbg _ _ Registry.initial ri hri]
      simp only [Option.toList, RegisterAll, hreg]
  · intro hfull
    refine ⟨by rw [hH.2.1, hfull]; exact lt_irrefl _, ?_⟩
    intro name factory hn hf
    exact Register_full dbg calls r name factory hH hfull hn hf

/-- The C18 result on sixteen registrations in a debug build: they fill the table, and a
seventeenth call fails on the capacity assertion. -/
theorem Register_capacity_witness :
    fullCalls.length ≤ MAX_PAIR_COUNT ∧
      (∀ c ∈ fullCalls, c.name ≠ none ∧ c.factory ≠ NULL) ∧
      (RegisterAll true Registry.initial fullCalls).toOption.map (fun r => r.gCount) =
        some 16 ∧
      RegisterAll true Registry.initial (fullCalls ++ [{ name := some "Z", factory := 17 }]) =
        Except.error Fault.assertion ∧
      (∃ r : Registry, RegisterAll true Registry.initial fullCalls = Except.ok r ∧
        r.gCount = fullCalls.length ∧
        (∀ (i : Nat) (c : RegisterCall), fullCalls[i]? = some c →
          ∃ ri ri1 : Registry,
            RegisterAll true Registry.initial (fullCalls.take i) = Except.ok ri ∧
            ri.gCount = i ∧ i < MAX_PAIR_COUNT ∧
            Register true ri c.name c.factory = Except.ok ri1 ∧
            ri1.gCount = i + 1 ∧
            ri1.gPairs = ri.gPairs.set i (Pair.mk c.name c.factory) ∧
            ri1.gPairs[i]? = some (Pair.mk c.name c.factory) ∧
            (∀ j : Nat, j ≠ i → ri1.gPairs[j]? = ri.gPairs[j]?) ∧
            RegisterAll true Registry.initial (fullCalls.take (i + 1)) = Except.ok ri1) ∧
        (fullCalls.length = MAX_PAIR_COUNT →
          ¬ (r.gCount < MAX_PAIR_COUNT) ∧
          ∀ (name : Option String) (factory : Nat), name ≠ none → factory ≠ NULL →
            Register true r name factory =
              Except.error
                (if true = true then Fault.assertion else Fault.undefinedBehaviour))) :=
  ⟨by decide, by decide, by decide, by decide,
   Register_capacity true fullCalls (by decide) (by decide)⟩

/-- C20: registry round trip.  For every registry built by at most 16 `Register` calls
(non-null names and factories, either build) whose names are pairwise distinct and whose
factories are pairwise distinct, every registered pair `(n, f)` has
`FactoryToName(f) = n` and `NameToFactory(n) = f`, hence
`NameToFactory(FactoryToName(f)) = f` and `FactoryToName(NameToFactory(n))` is
string-equal to `n`. -/
theorem registry_round_trip (dbg : Bool) (calls : List RegisterCall)
    (hlen : calls.length ≤ MAX_PAIR_COUNT)
    (hvalid : ∀ c ∈ calls, c.name ≠ none ∧ c.factory ≠ NULL)
    (hnames : (calls.map (fun c => c.name)).Nodup)
    (hfacts : (calls.map (fun c => c.factory)).Nodup) :
    ∃ r : Registry, RegisterAll dbg Registry.initial calls = Except.ok r ∧
      ∀ c ∈ calls, ∀ n : String, c.name = some n →
        FactoryToName r c.factory = Except.ok (some n) ∧
        NameToFactory r n = Except.ok c.factory ∧
        (∃ nm, FactoryToName r c.factory = Except.ok (some nm) ∧
          NameToFactory r nm = Except.ok c.factory) ∧
        (∃ f nm, NameToFactory r n = Except.ok f ∧ FactoryToName r f = Except.ok (some nm) ∧
          strcmp nm n = 0) := by
  obtain ⟨r, hr, hH⟩ := RegisterAll_holds dbg calls [] Registry.initial
    Registry.initial_holds (by simpa using hlen) hvalid
  rw [List.nil_append] at hH
  refine ⟨r, hr, ?_⟩
  intro c hc n hcn
  have hF : FactoryToName r c.factory = Except.ok (some n) := by
    rcases FactoryToName_cases calls r c.factory hH with ⟨hnone, _⟩ | ⟨i, c1, h1, h2, _, h4⟩
    · exact absurd rfl (hnone c hc)
    · have e : c1 = c := List.inj_on_of_nodup_map hfacts (List.getElem?_mem h1) hc h2
      rw [h4, e, hcn]
  have hN : NameToFactory r n = Except.ok c.factory := by
    rcases NameToFactory_cases calls r n hH hvalid with ⟨hnone, _⟩ | ⟨i, c1, h1, h2, _, h4⟩
    · exact absurd hcn (hnone c hc)
    · have e : c1 = c := List.inj_on_of_nodup_map hnames (List.getElem?_mem h1) hc
        (h2.trans hcn.symm)
      rw [h4, e]
  exact ⟨hF, hN, ⟨n, hF, hN⟩, ⟨c.factory, n, hN, hF, (strcmp_eq_zero_iff n n).mpr rfl⟩⟩

/-- The C20 result on sixteen registrations with distinct names and factories. -/
theorem registry_round_trip_witness :
    fullCalls.length ≤ MAX_PAIR_COUNT ∧
      (∀ c ∈ fullCalls, c.name ≠ none ∧ c.factory ≠ NULL) ∧
      (fullCalls.map (fun c => c.name)).Nodup ∧
      (fullCalls.map (fun c => c.factory)).Nodup ∧
      (RegisterAll false Registry.initial fullCalls).toOption.map
          (fun r => (FactoryToName r 3, NameToFactory r "NNN")) =
        some (Except.ok (some "NNN"), Except.ok 3) ∧
      (∃ r : Registry, RegisterAll false Registry.initial fullCalls = Except.ok r ∧
        ∀ c ∈ fullCalls, ∀ n : String, c.name = some n →
          FactoryToName r c.factory = Except.ok (some n) ∧
          NameToFactory r n = Except.ok c.factory ∧
          (∃ nm, FactoryToName r c.factory = Except.ok (some nm) ∧
            NameToFactory r nm = Except.ok c.factory) ∧
          (∃ f nm, NameToFactory r n = Except.ok f ∧
            FactoryToName r f = Except.ok (some nm) ∧ strcmp nm n = 0)) :=
  ⟨by decide, by decide, by decide, by decide, by decide,
   registry_round_trip false fullCalls (by decide) (by decide) (by decide) (by decide)⟩

/-! ## Interleaved threads -/

theorem pairedFrom_cons_other (d : Nat) (op : Op) (rest : List Op)
    (hl : op ≠ Op.lockPixels) (hu : op ≠ Op.unlockPixels) :
    pairedFrom d (op :: rest) = pairedFrom d rest := by
  cases op with
  | lockPixels => exact absurd rfl hl
  | unlockPixels => exact absurd rfl hu
  | getGenerationID => rfl
  | notifyPixelsChanged => rfl
  | lockPixelsAreWritable => rfl
  | setImmutable => rfl
  | readPixels dst subset => rfl
  | flatten => rfl
  | otherDraw => rfl

theorem heldBy_set : ∀ (progs : List (List Op)) (i : Nat) (a b : List Op),
    progs[i]? = some a → heldBy (progs.set i b) + owed a = heldBy progs + owed b := by
  intro progs
  induction progs with
  | nil => intro i a b h; simp at h
  | cons p rest ih =>
      intro i a b h
      cases i with
      | zero =>
          simp only [List.getElem?_cons_zero, Option.some.injEq] at h
          subst h
          simp only [heldBy, List.set_cons_zero, List.map_cons, List.sum_cons]
          omega
      | succ i =>
          simp only [List.getElem?_cons_succ] at h
          have := ih i a b h
          simp only [heldBy, List.set_cons_succ, List.map_cons, List.sum_cons] at this ⊢
          omega

theorem owed_le_heldBy : ∀ (progs : List (List Op)) (i : Nat) (a : List Op),
    progs[i]? = some a → owed a ≤ heldBy progs := by
  intro progs
  induction progs with
  | nil => intro i a h; simp at h
  | cons p rest ih =>
      intro i a h
      cases i with
      | zero =>
          simp only [List.getElem?_cons_zero, Option.some.injEq] at h
          subst h
          simp only [heldBy, List.map_cons, List.sum_cons]
          omega
      | succ i =>
          simp only [List.getElem?_cons_succ] at h
          have := ih i a h
          simp only [heldBy, List.map_cons, List.sum_cons] at this ⊢
          omega

/-- What is left of a thread is paired from the locks the thread holds. -/
theorem thread_tail (op : Op) (t : List Op)
    (h : pairedFrom (owed (op :: t)) (op :: t) = true ∧
      countLocks (op :: t) ≤ countUnlocks (op :: t)) :
    (pairedFrom (owed t) t = true ∧ countLocks t ≤ countUnlocks t) ∧
      (op = Op.lockPixels → owed t = owed (op :: t) + 1) ∧
      (op = Op.unlockPixels → 0 < owed (op :: t) ∧ owed t = owed (op :: t) - 1) ∧
      (op ≠ Op.lockPixels → op ≠ Op.unlockPixels → owed t = owed (op :: t)) := by
  obtain ⟨hp, hc⟩ := h
  by_cases hl : op = Op.lockPixels
  · subst hl
    have e : owed t = owed (Op.lockPixels :: t) + 1 := by
      simp [owed, countLocks, countUnlocks, List.count_cons] at hc ⊢
      omega
    refine ⟨⟨?_, ?_⟩, fun _ => e, fun h => absurd h (by decide), fun h => absurd rfl h⟩
    · rw [e]; exact hp
    · simp [countLocks, countUnlocks, List.count_cons] at hc ⊢
      omega
  · by_cases hu : op = Op.unlockPixels
    · subst hu
      obtain ⟨hpos, hrest⟩ := pairedFrom_unlock _ t hp
      have e : owed t = owed (Op.unlockPixels :: t) - 1 := by
        simp [owed, countLocks, countUnlocks, List.count_cons]
        omega
      refine ⟨⟨?_, ?_⟩, fun h => absurd h (by decide), fun _ => ⟨hpos, e⟩,
        fun _ h => absurd rfl h⟩
      · rw [e]; exact hrest
      · simp [owed, countLocks, countUnlocks, List.count_cons] at hpos ⊢
        omega
    · have e : owed t = owed (op :: t) := by
        simp [owed, countLocks, countUnlocks, List.count_cons, hl, hu]
      refine ⟨⟨?_, ?_⟩, fun h => absurd h hl, fun h => absurd h hu, fun _ _ => e⟩
      · rw [e, ← pairedFrom_cons_other _ op t hl hu]; exact hp
      · simpa [countLocks, countUnlocks, List.count_cons, hl, hu] using hc

theorem threadBody_paired : ∀ pairs : Nat,
    pairedFrom (owed (threadBody pairs)) (threadBody pairs) = true ∧
      countLocks (threadBody pairs) ≤ countUnlocks (threadBody pairs) ∧
      owed (threadBody pairs) = 0 := by
  have hcount : ∀ pairs : Nat, countLocks (threadBody pairs) = pairs ∧
      countUnlocks (threadBody pairs) = pairs := by
    intro pairs
    induction pairs with
    | zero => exact ⟨rfl, rfl⟩
    | succ p ih =>
        obtain ⟨h1, h2⟩ := ih
        simp only [countLocks, countUnlocks] at h1 h2
        simp [threadBody, countLocks, countUnlocks, List.count_cons, h1, h2]
  have hpaired : ∀ pairs : Nat, pairedFrom 0 (threadBody pairs) = true := by
    intro pairs
    induction pairs with
    | zero => rfl
    | succ p ih => simpa [threadBody, pairedFrom] using ih
  intro pairs
  have ho : owed (threadBody pairs) = 0 := by
    simp [owed, (hcount pairs).1, (hcount pairs).2]
  rw [ho]
  exact ⟨hpaired pairs, by rw [(hcount pairs).1, (hcount pairs).2], rfl⟩

/-- However threads that each keep to the pairing are interleaved, the handle sees a
well-paired sequence; locks held before plus locks made equal unlocks made plus locks
still held. -/
theorem interleave_paired : ∀ (sched : List Nat) (progs : List (List Op)),
    (∀ t ∈ progs, pairedFrom (owed t) t = true ∧ countLocks t ≤ countUnlocks t) →
    pairedFrom (heldBy progs) (interleave progs sched).1 = true ∧
      heldBy progs + countLocks (interleave progs sched).1 =
        countUnlocks (interleave progs sched).1 + heldBy (interleave progs sched).2 := by
  intro sched
  induction sched with
  | nil =>
      intro progs _
      exact ⟨rfl, by simp [interleave, countLocks, countUnlocks]⟩
  | cons i rest ih =>
      intro progs hinv
      cases hget : progs[i]? with
      | none => simp only [interleave, hget]; exact ih progs hinv
      | some a =>
          cases a with
          | nil => simp only [interleave, hget]; exact ih progs hinv
          | cons op t =>
              have hmem : (op :: t) ∈ progs := List.getElem?_mem hget
              obtain ⟨hT, hlock, hunlock, hother⟩ := thread_tail op t (hinv _ hmem)
              have hinv1 : ∀ x ∈ progs.set i t,
                  pairedFrom (owed x) x = true ∧ countLocks x ≤ countUnlocks x := by
                intro x hx
                rcases List.mem_or_eq_of_mem_set hx with h | h
                · exact hinv x h
                · rw [h]; exact hT
              obtain ⟨ih1, ih2⟩ := ih (progs.set i t) hinv1
              have hset := heldBy_set progs i (op :: t) t hget
              have hle := owed_le_heldBy progs i (op :: t) hget
              simp only [interleave, hget]
              by_cases hl : op = Op.lockPixels
              · have e := hlock hl
                subst hl
                have hh : heldBy (progs.set i t) = heldBy progs + 1 := by omega
                rw [hh] at ih1 ih2
                refine ⟨ih1, ?_⟩
                simp [countLocks, countUnlocks, List.count_cons] at ih2 ⊢
                omega
              · by_cases hu : op = Op.unlockPixels
                · obtain ⟨hpos, e⟩ := hunlock hu
                  subst hu
                  have hh : heldBy (progs.set i t) = heldBy progs - 1 := by omega
                  rw [hh] at ih1 ih2
                  refine ⟨?_, ?_⟩
                  · simp only [pairedFrom, Bool.and_eq_true, decide_eq_true_eq]
                    exact ⟨by omega, ih1⟩
                  · simp [countLocks, countUnlocks, List.count_cons] at ih2 ⊢
                    omega
                · have e := hother hl hu
                  have hh : heldBy (progs.set i t) = heldBy progs := by omega
                  rw [hh] at ih1 ih2
                  refine ⟨by rw [pairedFrom_cons_other _ op _ hl hu]; exact ih1, ?_⟩
                  simp [countLocks, countUnlocks, List.count_cons, hl, hu] at ih2 ⊢
                  omega

theorem heldBy_of_all_empty : ∀ progs : List (List Op),
    progs.all List.isEmpty = true → heldBy progs = 0 := by
  intro progs
  induction progs with
  | nil => intro _; rfl
  | cons p rest ih =>
      intro h
      simp only [List.all_cons, Bool.and_eq_true] at h
      have hp : p = [] := List.isEmpty_iff.mp h.1
      have := ih h.2
      simp only [heldBy, List.map_cons, List.sum_cons] at this ⊢
      rw [this, hp]
      rfl

theorem heldBy_replicate_threadBody (N pairs : Nat) :
    heldBy (List.replicate N (threadBody pairs)) = 0 := by
  induction N with
  | zero => rfl
  | succ N ih =>
      simp only [heldBy, List.replicate_succ, List.map_cons, List.sum_cons] at ih ⊢
      rw [ih, (threadBody_paired pairs).2.2]

/-- C16: treating each `lockPixels` / `unlockPixels` call as atomic, for every number `N`
of threads, every number of lock/unlock pairs per thread (1000 in particular) and every
interleaving of the threads that runs them all to completion on one shared fresh handle
(in either build, for every subtype): every call returns, and at the end
`fLockCount = 0`, `fPixels` and `fColorTable` are null, and `onLockPixels` and
`onUnlockPixels` have been invoked equally often. -/
theorem interleaved_threads_balanced (dbg : Bool) (k : Hooks σ) (w : World σ)
    (mutex : Option Nat) (N pairs : Nat) (sched : List Nat)
    (hfresh : w.ref = SkPixelRef.create mutex) (hlog : w.hookCalls = [])
    (hdone : (interleave (List.replicate N (threadBody pairs)) sched).2.all List.isEmpty = true) :
    ∃ w1, run dbg k w (interleave (List.replicate N (threadBody pairs)) sched).1 = Except.ok w1 ∧
      w1.ref.fLockCount = 0 ∧ w1.ref.fPixels = NULL ∧ w1.ref.fColorTable = NULL ∧
      materializeCalls w1.hookCalls = releaseCalls w1.hookCalls := by
  have hinv : ∀ t ∈ List.replicate N (threadBody pairs),
      pairedFrom (owed t) t = true ∧ countLocks t ≤ countUnlocks t := by
    intro t ht
    rw [List.eq_of_mem_replicate ht]
    exact ⟨(threadBody_paired pairs).1, (threadBody_paired pairs).2.1⟩
  obtain ⟨hp, hc⟩ := interleave_paired sched _ hinv
  rw [heldBy_replicate_threadBody, heldBy_of_all_empty _ hdone] at hc
  rw [heldBy_replicate_threadBody] at hp
  have h0 : w.ref.fLockCount = ((0 : Nat) : Int) := by rw [hfresh]; rfl
  have hP : (w.ref.fLockCount = 0 → w.ref.fPixels = NULL ∧ w.ref.fColorTable = NULL) ∧
      materializeCalls w.hookCalls =
        releaseCalls w.hookCalls + (if 0 < w.ref.fLockCount then 1 else 0) := by
    rw [hlog, hfresh]
    exact ⟨fun _ => ⟨rfl, rfl⟩, rfl⟩
  obtain ⟨w1, hrun, hP1, _⟩ := run_paired dbg k
    (fun x => (x.ref.fLockCount = 0 → x.ref.fPixels = NULL ∧ x.ref.fColorTable = NULL) ∧
      materializeCalls x.hookCalls =
        releaseCalls x.hookCalls + (if 0 < x.ref.fLockCount then 1 else 0))
    (fun a b op hPa ha hu hs =>
      ⟨step_keeps_cleared dbg k a b op hPa.1 ha hu hs,
       step_keeps_hook_balance dbg k a b op hPa.2 ha hu hs⟩)
    _ 0 w h0 hp hP
  have hcount := run_lockCount dbg k _ w w1 hrun
  have hz : w1.ref.fLockCount = 0 := by
    rw [hcount, h0]
    omega
  refine ⟨w1, hrun, hz, (hP1.1 hz).1, (hP1.1 hz).2, ?_⟩
  have := hP1.2
  rw [hz] at this
  simpa using this

/-- The C16 result at a concrete interleaving: two threads, two lock/unlock pairs each,
scheduled 0, 1, 1, 0, 0, 1, 0, 1 on a handle backed by `mallocPixelRef`. -/
theorem interleaved_threads_balanced_witness :
    (World.fresh none (0 : Nat)).ref = SkPixelRef.create none ∧
      (World.fresh none (0 : Nat)).hookCalls = [] ∧
      (interleave (List.replicate 2 (threadBody 2)) [0, 1, 1, 0, 0, 1, 0, 1]).1 =
        [Op.lockPixels, Op.lockPixels, Op.unlockPixels, Op.unlockPixels,
          Op.lockPixels, Op.lockPixels, Op.unlockPixels, Op.unlockPixels] ∧
      (interleave (List.replicate 2 (threadBody 2)) [0, 1, 1, 0, 0, 1, 0, 1]).2.all
          List.isEmpty = true ∧
      (∃ w1, run true mallocPixelRef (World.fresh none (0 : Nat))
          (interleave (List.replicate 2 (threadBody 2)) [0, 1, 1, 0, 0, 1, 0, 1]).1 =
            Except.ok w1 ∧
        w1.ref.fLockCount = 0 ∧ w1.ref.fPixels = NULL ∧ w1.ref.fColorTable = NULL ∧
        materializeCalls w1.hookCalls = releaseCalls w1.hookCalls) :=
  ⟨rfl, rfl, by decide, by decide,
   interleaved_threads_balanced true mallocPixelRef (World.fresh none (0 : Nat)) none 2 2
     [0, 1, 1, 0, 0, 1, 0, 1] rfl rfl (by decide)⟩

end Skia
